import Mathlib

/-!
Shallow embedding of the `chameleon` MCTS engine (`src/game.rs`, `src/mcts.rs`).

Modelling conventions:
* The Rust `Game` trait becomes a structure of pure functions; the mutable game
  state is threaded explicitly (`play`/`undo` return the new state), exactly as
  the Rust code calls them, so no game-contract law is baked into the embedding.
* `HashMap<G::Hash, Arc<Mutex<MonteCarloNode>>>` becomes an arena: an
  association list from keys to indices (`nodes`) plus a node store (`store`).
  A cloned `Arc` held in the `visited` vector is modelled as the node's store
  index, so in-place mutation through an `Arc` (line 183 and backpropagation)
  is a store update, while `HashMap::insert` (line 204) appends a fresh node
  and rebinds the key — matching the aliasing behaviour of the Rust code.
* `f32` arithmetic of the quantization/blending code is modelled over `ℚ`
  (exact arithmetic; the `as i16` conversion is the saturating truncation that
  Rust performs).  The UCT potential (`sqrt`, `ln`) is real-valued and
  noncomputable, so the selection code is parametrized by the potential
  function `pot`; `potentialR` below is the formula of `mcts.rs` lines
  126-131, and structural theorems are stated for every `pot`, hence in
  particular for `potentialR`.
* `rand::thread_rng` and `IteratorRandom::choose` are modelled by an explicit
  choice oracle `pick : Nat → Nat` consumed sequentially (index taken modulo
  the number of legal actions, which is how a uniform choice is consumed).
* The unbounded `'selection` and `'simulation` loops get explicit fuel and the
  whole `step` returns `Option`; `none` covers panics (`unreachable!`,
  `unwrap` on an empty action iterator, a dangling index) and exhausted fuel,
  so every theorem about a `some` result is a partial-correctness statement
  about a terminating, panic-free run, exactly the runs the Rust code
  completes.
-/

namespace Chameleon

/-- `ExactUtility` from `src/game.rs`. -/
inductive ExactUtility (π : Type) where
  | Win (p : π)
  | Draw
deriving DecidableEq, Repr

/-- `Utility` from `src/game.rs`: exact outcome, quantized estimate (`i16`,
modelled as `Int`), or unknown. -/
inductive Utility (π : Type) where
  | Exact (e : ExactUtility π)
  | Approximate (v : Int)
  | Unknown
deriving DecidableEq, Repr

/-- The `Game` trait from `src/game.rs`, as a structure of pure functions over
an explicit state type `σ`, actions `α`, players `π` and hash keys `κ`. -/
structure Game (σ α π κ : Type) where
  play : σ → α → σ
  undo : σ → σ
  currentPlayer : σ → π
  actions : σ → List α
  utility : σ → Utility π
  hash : σ → κ

/-- `MonteCarloNode` from `src/mcts.rs`. -/
structure MonteCarloNode (π : Type) where
  utility : Utility π
  visits : Nat
deriving DecidableEq, Repr

/-- `MonteCarloTree` from `src/mcts.rs`.  The `HashMap` of shared nodes is an
arena: `nodes` binds each hash key to an index into `store`. -/
structure MonteCarloTree (κ π : Type) where
  nodes : List (κ × Nat)
  store : List (MonteCarloNode π)
  simulationsPerNode : Nat
deriving DecidableEq, Repr

/-- `MonteCarloTree::new`: empty tree, 255 playouts per expanded node. -/
def MonteCarloTree.new (κ π : Type) : MonteCarloTree κ π :=
  ⟨[], [], 255⟩

/-- Association-list lookup for the key map. -/
def lookupKey [DecidableEq κ] (k : κ) : List (κ × Nat) → Option Nat
  | [] => none
  | (k', i) :: rest => if k' = k then some i else lookupKey k rest

/-- Rebind `k` to `i` (replace an existing binding, else append). -/
def bindKey [DecidableEq κ] (k : κ) (i : Nat) : List (κ × Nat) → List (κ × Nat)
  | [] => [(k, i)]
  | (k', i') :: rest => if k' = k then (k, i) :: rest else (k', i') :: bindKey k i rest

/-- Index of the node for key `k`, if bound (`HashMap::get`). -/
def MonteCarloTree.findIdx [DecidableEq κ] (t : MonteCarloTree κ π) (k : κ) : Option Nat :=
  lookupKey k t.nodes

/-- The node stored for key `k`, if any. -/
def MonteCarloTree.findNode [DecidableEq κ] (t : MonteCarloTree κ π) (k : κ) :
    Option (MonteCarloNode π) :=
  (t.findIdx k).bind (t.store.get? ·)

/-- `HashMap::insert` of a fresh node: append to the store, rebind the key. -/
def MonteCarloTree.insertNew [DecidableEq κ] (t : MonteCarloTree κ π) (k : κ)
    (n : MonteCarloNode π) : MonteCarloTree κ π :=
  ⟨bindKey k t.store.length t.nodes, t.store ++ [n], t.simulationsPerNode⟩

/-- In-place update of a list at an index (no-op when out of range). -/
def modifyIdx (f : β → β) : List β → Nat → List β
  | [], _ => []
  | b :: rest, 0 => f b :: rest
  | b :: rest, j + 1 => b :: modifyIdx f rest j

/-- Mutation through a cloned `Arc`: update the store in place at index `i`. -/
def MonteCarloTree.mutate [DecidableEq κ] (t : MonteCarloTree κ π) (i : Nat)
    (f : MonteCarloNode π → MonteCarloNode π) : MonteCarloTree κ π :=
  ⟨t.nodes, modifyIdx f t.store i, t.simulationsPerNode⟩

/-- The utility stored for key `k`, if any. -/
def utilAt [DecidableEq κ] (t : MonteCarloTree κ π) (k : κ) : Option (Utility π) :=
  (t.findNode k).map (·.utility)

/-- Truncation toward zero of a rational (what `as i16` does to an in-range
`f32` value). -/
def ratTrunc (x : ℚ) : Int :=
  if 0 ≤ x then ⌊x⌋ else ⌈x⌉

/-- Rust's saturating `f32 as i16` conversion on an exact rational value. -/
def i16cast (x : ℚ) : Int :=
  max (-32768) (min 32767 (ratTrunc x))

/-- The blending assignment of `mcts.rs` lines 232-233:
`*approx = ((((*approx / i16::MAX) + new) / 2) * i16::MAX) as i16`. -/
def blend (approx : Int) (obs : ℚ) : Int :=
  i16cast ((((approx : ℚ) / 32767 + obs) / 2) * 32767)

/-- The match of `mcts.rs` lines 142-160: should `new` replace `best` as the
best exact utility, from the perspective of `cur` (the current player)? -/
def favorNew [DecidableEq π] (cur : π) (best new : ExactUtility π) : Bool :=
  match new with
  | .Win p => decide (p = cur)
  | .Draw =>
    match best with
    | .Win p => decide (p ≠ cur)
    | .Draw => false

/-- `best_exact` update (`mcts.rs` lines 143-160): replace when the map over
the option says so, defaulting to `true` when no best is set yet. -/
def updateBE [DecidableEq π] (cur : π) (bE : Option (ExactUtility π)) (eu : ExactUtility π) :
    Option (ExactUtility π) :=
  if (bE.map (fun best => favorNew cur best eu)).getD true then some eu else bE

/-- Result of the inner `for action in state.actions()` scan of the selection
phase (`mcts.rs` lines 115-172): either `break 'selection` with the played
action kept (`brk`), or scan completed (`fin`) with the final state and the
three accumulators. -/
inductive ScanOut (σ α π P : Type) where
  | brk (s : σ)
  | fin (s : σ) (bA : Option α) (bP : WithBot P) (bE : Option (ExactUtility π))
deriving Repr, DecidableEq

/-- The selection scan, one iteration per legal action, threading the game
state exactly as the Rust loop plays and undoes it.  `pot` is the potential
function (parent visits, child visits, exploitation); the Rust
`Option<f32>` comparison `best < Some(p)` is `WithBot` order. -/
def scanGo [DecidableEq κ] [DecidableEq π] [LinearOrder P] (g : Game σ α π κ)
    (pot : Nat → Nat → Int → P) (t : MonteCarloTree κ π) (parentVisits : Nat) (cur : π) :
    List α → σ → Option α → WithBot P → Option (ExactUtility π) → ScanOut σ α π P
  | [], s, bA, bP, bE => .fin s bA bP bE
  | a :: rest, s, bA, bP, bE =>
    let s1 := g.play s a
    match t.findNode (g.hash s1) with
    | none => .brk s1
    | some child =>
      match child.utility with
      | .Unknown => .brk s1
      | .Approximate e =>
        let p := pot parentVisits child.visits e
        if bP < (p : WithBot P) then
          scanGo g pot t parentVisits cur rest (g.undo s1) (some a) (p : WithBot P) bE
        else
          scanGo g pot t parentVisits cur rest (g.undo s1) bA bP bE
      | .Exact eu =>
        scanGo g pot t parentVisits cur rest (g.undo s1) bA bP (updateBE cur bE eu)

/-- Result of the `'selection` loop: either an early `return` after solving the
node pushed last with no ancestors left (`mcts.rs` lines 186-188), or arrival
at the expansion target with the tree, state and visited indices. -/
inductive SelOut (σ κ π : Type) where
  | solvedRoot (t : MonteCarloTree κ π) (s : σ)
  | expand (t : MonteCarloTree κ π) (s : σ) (vis : List Nat)
deriving Repr, DecidableEq

/-- The `'selection` loop (`mcts.rs` lines 106-194), with fuel.  `vis` holds
store indices of visited nodes, most recent first (Rust pushes and pops at the
end of its vector). -/
def selLoop [DecidableEq κ] [DecidableEq π] [LinearOrder P] (g : Game σ α π κ)
    (pot : Nat → Nat → Int → P) :
    Nat → MonteCarloTree κ π → σ → List Nat → Option (SelOut σ κ π)
  | 0, _, _, _ => none
  | fuel + 1, t, s, vis =>
    match t.findIdx (g.hash s) with
    | none => some (.expand t s vis)
    | some i =>
      match t.store.get? i with
      | none => none
      | some node =>
        let cur := g.currentPlayer s
        match scanGo g pot t node.visits cur (g.actions s) s none ⊥ none with
        | .brk sB => some (.expand t sB (i :: vis))
        | .fin s2 bA _ bE =>
          match bA with
          | some a => selLoop g pot fuel t (g.play s2 a) (i :: vis)
          | none =>
            match bE with
            | some be =>
              let t' := t.mutate i (fun n => { n with utility := .Exact be })
              match vis with
              | [] => some (.solvedRoot t' s2)
              | _ :: visT => selLoop g pot fuel t' (g.undo s2) visT
            | none => none

/-- One random playout descent (`mcts.rs` lines 248-266): pick an action with
the oracle, play it, stop on a non-`Unknown` utility with the scalar result
relative to `np` (the player to move at the expansion position). -/
def simOne [DecidableEq π] (g : Game σ α π κ) (pick : Nat → Nat) (np : π) :
    Nat → σ → Nat → Nat → Option (ℚ × σ × Nat × Nat)
  | 0, _, _, _ => none
  | fuel + 1, s, plys, ctr =>
    match g.actions s with
    | [] => none
    | a0 :: rest =>
      let a := (a0 :: rest).get ⟨pick ctr % (a0 :: rest).length, Nat.mod_lt _ (Nat.succ_pos _)⟩
      let s1 := g.play s a
      match g.utility s1 with
      | .Exact (.Win p) => some (if p = np then 1 else -1, s1, plys + 1, ctr + 1)
      | .Exact .Draw => some (0, s1, plys + 1, ctr + 1)
      | .Approximate v => some ((v : ℚ) / 32767, s1, plys + 1, ctr + 1)
      | .Unknown => simOne g pick np fuel s1 (plys + 1) (ctr + 1)

/-- The playout loop of `simulate` (`mcts.rs` lines 245-275): run each playout,
undo the played moves, accumulate the scalar results. -/
def simLoop [DecidableEq π] (g : Game σ α π κ) (pick : Nat → Nat) (np : π) (fuel : Nat) :
    Nat → σ → ℚ → Nat → Option (ℚ × σ × Nat)
  | 0, s, acc, ctr => some (acc, s, ctr)
  | n + 1, s, acc, ctr =>
    match simOne g pick np fuel s 0 ctr with
    | none => none
    | some (r, s1, plys, ctr1) => simLoop g pick np fuel n (g.undo^[plys] s1) (acc + r) ctr1

/-- `MonteCarloTree::simulate` (`mcts.rs` lines 241-282): average the playout
results, quantize by `i16::MAX` and return an `Approximate` utility. -/
def simulate [DecidableEq π] (g : Game σ α π κ) (pick : Nat → Nat) (fuel spn : Nat)
    (s : σ) (playouts : Nat) : Option (Utility π × σ × Nat) :=
  (simLoop g pick (g.currentPlayer s) fuel playouts s 0 0).map fun r =>
    (.Approximate (i16cast (r.1 / (spn : ℚ) * 32767)), r.2.1, r.2.2)

/-- The scalar observed value `new` of `mcts.rs` lines 219-230, evaluated at an
ancestor state `s` (the Rust code reads `state.current_player()` after the
`undo`); `none` is the `unreachable!` on an `Unknown` observed utility. -/
def observedScalar [DecidableEq π] (g : Game σ α π κ) (u : Utility π) (s : σ) : Option ℚ :=
  match u with
  | .Exact (.Win p) => some (if p = g.currentPlayer s then 1 else -1)
  | .Exact .Draw => some 0
  | .Approximate v => some ((v : ℚ) / 32767)
  | .Unknown => none

/-- The backpropagation loop (`mcts.rs` lines 211-237): pop each visited node,
undo one action, bump its visit count, and blend `Approximate` utilities with
the observed value; `Exact` (and `Unknown`) utilities are left as they are. -/
def backpropGo [DecidableEq π] (g : Game σ α π κ) (u : Utility π) :
    List Nat → σ → List (MonteCarloNode π) → Option (σ × List (MonteCarloNode π))
  | [], s, store => some (s, store)
  | i :: rest, s, store =>
    let s' := g.undo s
    match store.get? i with
    | none => backpropGo g u rest s' store
    | some n =>
      match n.utility with
      | .Approximate approx =>
        match observedScalar g u s' with
        | none => none
        | some obs =>
          backpropGo g u rest s'
            (store.set i ⟨.Approximate (blend approx obs), n.visits + 1⟩)
      | _ => backpropGo g u rest s' (store.set i ⟨n.utility, n.visits + 1⟩)

/-- `MonteCarloTree::step` (`mcts.rs` lines 99-238): selection, expansion
(with simulation when the game's utility is `Unknown`), insertion of the new
node with one visit, backpropagation. -/
def step [DecidableEq κ] [DecidableEq π] [LinearOrder P] (g : Game σ α π κ)
    (pot : Nat → Nat → Int → P) (pick : Nat → Nat) (fuelSel fuelSim : Nat)
    (t : MonteCarloTree κ π) (s : σ) : Option (MonteCarloTree κ π × σ) :=
  match selLoop g pot fuelSel t s [] with
  | none => none
  | some (.solvedRoot t' s') => some (t', s')
  | some (.expand t1 sE vis) =>
    let exp : Option (Utility π × σ) :=
      match g.utility sE with
      | .Unknown =>
        (simulate g pick fuelSim t1.simulationsPerNode sE t1.simulationsPerNode).map
          fun r => (r.1, r.2.1)
      | u => some (u, sE)
    match exp with
    | none => none
    | some (u, sE1) =>
      let t2 := t1.insertNew (g.hash sE1) ⟨u, 1⟩
      match backpropGo g u vis sE1 t2.store with
      | none => none
      | some (sF, store') => some (⟨t2.nodes, store', t2.simulationsPerNode⟩, sF)

/-- The inner loop of `best_action` (`mcts.rs` lines 42-92), threading the game
state; `bX` is `best_exploitation : Option<i16>` with the Rust `Option`
order (`none` below everything). -/
def bestActionGo [DecidableEq κ] [DecidableEq π] (g : Game σ α π κ)
    (t : MonteCarloTree κ π) (cur : π) :
    List α → σ → Option α → WithBot Int → Option α
  | [], _, bA, _ => bA
  | a :: rest, s, bA, bX =>
    let s1 := g.play s a
    match t.findNode (g.hash s1) with
    | some child =>
      match child.utility with
      | .Approximate e =>
        if bX < ((e : Int) : WithBot Int) then
          bestActionGo g t cur rest (g.undo s1) (some a) ((e : Int) : WithBot Int)
        else
          bestActionGo g t cur rest (g.undo s1) bA bX
      | .Exact (.Win p) =>
        if p = cur then some a
        else bestActionGo g t cur rest (g.undo s1) (if bA.isNone then some a else bA) bX
      | .Exact .Draw =>
        bestActionGo g t cur rest (g.undo s1) (if bX = ⊥ then some a else bA) bX
      | .Unknown =>
        bestActionGo g t cur rest (g.undo s1) (if bX = ⊥ then some a else bA) bX
    | none =>
      bestActionGo g t cur rest (g.undo s1) (if bX = ⊥ then some a else bA) bX

/-- `MonteCarloTree::best_action` (`mcts.rs` lines 37-95). -/
def bestAction [DecidableEq κ] [DecidableEq π] (g : Game σ α π κ)
    (t : MonteCarloTree κ π) (s : σ) : Option α :=
  bestActionGo g t (g.currentPlayer s) (g.actions s) s none ⊥

/-- The real-valued UCT potential of `mcts.rs` lines 126-131:
`sqrt(2) * (ln(parent_visits) / child_visits) - exploitation / u16::MAX`
(note the divisor 65535 = `u16::MAX`, and no square root around the ratio). -/
noncomputable def potentialR (parentVisits childVisits : Nat) (e : Int) : ℝ :=
  Real.sqrt 2 * (Real.log parentVisits / childVisits) - (e : ℝ) / 65535

/-- The game contract on `undo` (`src/game.rs` line 52 and spec 4.1): `undo`
exactly reverses the most recent `play`. -/
def UndoPlay (g : Game σ α π κ) : Prop :=
  ∀ s a, g.undo (g.play s a) = s

/-- Utility stored for the child reached by playing `a` from `s`. -/
def childUtil [DecidableEq κ] (g : Game σ α π κ) (t : MonteCarloTree κ π) (s : σ) (a : α) :
    Option (Utility π) :=
  utilAt t (g.hash (g.play s a))

/-- Potential-function parameter instantiated trivially over `ℤ`; used to
ground generic theorems on concrete runs. -/
def potZ : Nat → Nat → Int → Int := fun _ _ e => -e

/-- Trivial choice oracle: always pick index 0. -/
def pickZ : Nat → Nat := fun _ => 0

/-- A concrete reversible game over move histories: `play` pushes the action,
`undo` pops it, and the position is its own hash key.  `undo (play s a) = s`
holds definitionally, so this satisfies the game contract. -/
def histGame (acts : List Nat → List Nat) (util : List Nat → Utility Bool)
    (cp : List Nat → Bool) : Game (List Nat) Nat Bool (List Nat) :=
  ⟨fun s a => a :: s, List.tail, cp, acts, util, id⟩

/-- Two-action game used for the tie-breaking claims. -/
def gC8 : Game (List Nat) Nat Bool (List Nat) :=
  histGame (fun s => if s = [] then [1, 2] else []) (fun _ => .Unknown) (fun _ => true)

/-- Tree binding both children of the root of `gC8` to `Approximate 7`. -/
def tC8x : MonteCarloTree (List Nat) Bool :=
  ⟨[([1], 0), ([2], 1)], [⟨.Approximate 7, 1⟩, ⟨.Approximate 7, 2⟩], 255⟩

/-- What the `best_action` loop treats as an equal-priority fallback: an
unexplored child, an `Unknown` node, or a proven draw. -/
def FallbackChild [DecidableEq κ] (g : Game σ α π κ) (t : MonteCarloTree κ π)
    (s : σ) (a : α) : Prop :=
  childUtil g t s a = none ∨ childUtil g t s a = some .Unknown ∨
    childUtil g t s a = some (.Exact .Draw)


/-- Concrete game for grounding `step` runs: one action at the root, the child
position is a terminal draw, every other position has an action. -/
def gStep : Game (List Nat) Nat Bool (List Nat) :=
  histGame (fun s => if s = [] then [4] else [9])
    (fun s => if s = [4] then .Exact .Draw else .Unknown) (fun _ => true)

/-- Tree binding the root of `gStep` to an `Exact` node with three visits. -/
def tStep : MonteCarloTree (List Nat) Bool :=
  ⟨[([], 0)], [⟨.Exact (.Win true), 3⟩], 255⟩

/-- The result of one `step` of `gStep` on `tStep` from the empty history. -/
def stepResC3 : MonteCarloTree (List Nat) Bool × List Nat :=
  (⟨[([], 0), ([4], 1)], [⟨.Exact (.Win true), 4⟩, ⟨.Exact .Draw, 1⟩], 255⟩, [])

/-- One backpropagation update of a node (`mcts.rs` lines 214-236): increment
the visit count; blend `Approximate` utilities with the observed scalar,
leave any other utility unchanged. -/
def backpropUpdate (obs : ℚ) (n : MonteCarloNode π) : MonteCarloNode π :=
  match n.utility with
  | .Approximate approx => ⟨.Approximate (blend approx obs), n.visits + 1⟩
  | _ => ⟨n.utility, n.visits + 1⟩

/-- The tree carried by a selection-loop result. -/
def SelOut.tree : SelOut σ κ π → MonteCarloTree κ π
  | .solvedRoot t _ => t
  | .expand t _ _ => t

/-- Well-formedness of the arena: every bound index points into the store. -/
def TreeWf (t : MonteCarloTree κ π) : Prop :=
  ∀ p ∈ t.nodes, p.2 < t.store.length

/-- An `Approximate` payload within the quantization range `[-32767, 32767]`. -/
def ApproxInRange (u : Utility π) : Prop :=
  ∀ v, u = .Approximate v → -32767 ≤ v ∧ v ≤ 32767

/-- Every `Approximate` utility in the store is within `[-32767, 32767]`. -/
def StoreInRange (store : List (MonteCarloNode π)) : Prop :=
  ∀ n ∈ store, ApproxInRange n.utility

/-- Two-action game for the C1 counterexample: from the root, action 1 leads
to a position proven won for the mover, action 2 to a statistically explored
position with one further move. -/
def actsC1 : List Nat → List Nat
  | [] => [1, 2]
  | [2] => [3]
  | _ => [9]

/-- Utility function of `gC1`: the expansion target gets a direct
`Approximate` heuristic value, everything else is unknown. -/
def utilC1 : List Nat → Utility Bool
  | [3, 2] => .Approximate 7
  | _ => .Unknown

def gC1 : Game (List Nat) Nat Bool (List Nat) :=
  histGame actsC1 utilC1 (fun _ => true)

/-- Tree for the C1 counterexample: the root and both children are expanded;
the child reached by action 1 is `Exact(Win(true))` — a proven win for the
player to move at the root. -/
def tC1 : MonteCarloTree (List Nat) Bool :=
  ⟨[([], 0), ([1], 1), ([2], 2)],
   [⟨.Exact .Draw, 1⟩, ⟨.Exact (.Win true), 1⟩, ⟨.Approximate 0, 1⟩], 255⟩

/-- All children of `s` carry `Exact` nodes in the tree (the situation in
which the selection loop solves the node for `s`). -/
def AllExactChildren [DecidableEq κ] (g : Game σ α π κ) (t : MonteCarloTree κ π)
    (s : σ) : Prop :=
  ∀ a ∈ g.actions s, ∃ e, childUtil g t s a = some (.Exact e)

/-- The best proven outcome the selection scan computes over the children of
`s` (the `best_exact` accumulator, folded over `actions()` in order). -/
def exactFold [DecidableEq κ] [DecidableEq π] (g : Game σ α π κ) (t : MonteCarloTree κ π)
    (s : σ) : Option (ExactUtility π) :=
  (g.actions s).foldl
    (fun bE a =>
      match childUtil g t s a with
      | some (.Exact eu) => updateBE (g.currentPlayer s) bE eu
      | _ => bE)
    none

/-- Exact-consistency: every `Exact` node in the table is justified, either by
the game's own `utility()` at its position, or by having all children `Exact`
with the scan's best proven outcome equal to its stored value.  Trees built by
the algorithm from an empty table satisfy this invariant. -/
def Consistent [DecidableEq κ] [DecidableEq π] (g : Game σ α π κ)
    (t : MonteCarloTree κ π) : Prop :=
  ∀ s u, utilAt t (g.hash s) = some (.Exact u) →
    g.utility s = .Exact u ∨
    (AllExactChildren g t s ∧ exactFold g t s = some u)


/-- Game for grounding C4: the root holds a direct heuristic value, the single
terminal position `[5]` is a proven draw with no moves, everything else is
unknown. -/
def utilC4 : List Nat → Utility Bool :=
  fun s => if s = [] then .Approximate 3 else if s = [5] then .Exact .Draw else .Unknown

def actsC4 : List Nat → List Nat :=
  fun s => if s = [] then [5] else if s = [5] then [] else [9]

def gC4 : Game (List Nat) Nat Bool (List Nat) :=
  histGame actsC4 utilC4 (fun _ => true)

/-- Tree for grounding C4: the terminal draw is already stored as an `Exact`
node; the root is unexpanded. -/
def tC4 : MonteCarloTree (List Nat) Bool :=
  ⟨[([5], 0)], [⟨.Exact .Draw, 2⟩], 255⟩

/-- The result of one `step` of `gC4` on `tC4` from the empty history. -/
def stepResC4 : MonteCarloTree (List Nat) Bool × List Nat :=
  (⟨[([5], 0), ([], 1)], [⟨.Exact .Draw, 2⟩, ⟨.Approximate 3, 1⟩], 255⟩, [])

/-! ### Theorems -/

variable {σ α π κ P : Type}

lemma bestActionGo_isSome [DecidableEq κ] [DecidableEq π] (g : Game σ α π κ)
    (t : MonteCarloTree κ π) (cur : π) :
    ∀ (l : List α) (s : σ) (a0 : α) (bX : WithBot Int),
      (bestActionGo g t cur l s (some a0) bX).isSome := by
  intro l
  induction l with
  | nil => intro s a0 bX; simp [bestActionGo]
  | cons a rest ih =>
    intro s a0 bX
    simp only [bestActionGo]
    split
    · split
      · split
        · exact ih _ _ _
        · exact ih _ _ _
      · split
        · simp
        · split
          · exact ih _ _ _
          · exact ih _ _ _
      · split
        · exact ih _ _ _
        · exact ih _ _ _
      · split
        · exact ih _ _ _
        · exact ih _ _ _
    · split
      · exact ih _ _ _
      · exact ih _ _ _


/-- C7: for every tree contents and every game state, `best_action` returns
`none` if and only if `actions()` on that state yields an empty sequence;
whenever `actions()` is non-empty, some action is returned. -/
theorem bestAction_none_iff_actions_nil [DecidableEq κ] [DecidableEq π] (g : Game σ α π κ)
    (t : MonteCarloTree κ π) (s : σ) :
    bestAction g t s = none ↔ g.actions s = [] := by
  constructor
  · intro h
    by_contra hne
    rcases hl : g.actions s with _ | ⟨a, rest⟩
    · exact hne hl
    · rw [bestAction, hl] at h
      have key : ∀ (s' : σ) (a0 : α) (bX : WithBot Int),
          bestActionGo g t (g.currentPlayer s) rest s' (some a0) bX ≠ none := by
        intro s' a0 bX hh
        have hs := bestActionGo_isSome g t (g.currentPlayer s) rest s' a0 bX
        rw [hh] at hs
        simp at hs
      revert h
      simp only [bestActionGo]
      repeat' split
      all_goals
        first
        | (exact fun h => key _ _ _ h)
        | (exact fun _ => absurd (WithBot.bot_lt_coe _) (by assumption))
        | simp_all
  · intro h
    rw [bestAction, h]
    rfl


lemma bestActionGo_cons_none [DecidableEq κ] [DecidableEq π] {g : Game σ α π κ}
    {t : MonteCarloTree κ π} {cur : π} {a : α} {rest : List α} {s : σ} {bA : Option α}
    {bX : WithBot Int} (h : t.findNode (g.hash (g.play s a)) = none) :
    bestActionGo g t cur (a :: rest) s bA bX =
      bestActionGo g t cur rest (g.undo (g.play s a)) (if bX = ⊥ then some a else bA) bX := by
  simp only [bestActionGo, h]

lemma bestActionGo_cons_unknown [DecidableEq κ] [DecidableEq π] {g : Game σ α π κ}
    {t : MonteCarloTree κ π} {cur : π} {a : α} {rest : List α} {s : σ} {bA : Option α}
    {bX : WithBot Int} {c : MonteCarloNode π} (h : t.findNode (g.hash (g.play s a)) = some c)
    (hu : c.utility = .Unknown) :
    bestActionGo g t cur (a :: rest) s bA bX =
      bestActionGo g t cur rest (g.undo (g.play s a)) (if bX = ⊥ then some a else bA) bX := by
  simp only [bestActionGo, h, hu]

lemma bestActionGo_cons_draw [DecidableEq κ] [DecidableEq π] {g : Game σ α π κ}
    {t : MonteCarloTree κ π} {cur : π} {a : α} {rest : List α} {s : σ} {bA : Option α}
    {bX : WithBot Int} {c : MonteCarloNode π} (h : t.findNode (g.hash (g.play s a)) = some c)
    (hu : c.utility = .Exact .Draw) :
    bestActionGo g t cur (a :: rest) s bA bX =
      bestActionGo g t cur rest (g.undo (g.play s a)) (if bX = ⊥ then some a else bA) bX := by
  simp only [bestActionGo, h, hu]

lemma bestActionGo_cons_approx [DecidableEq κ] [DecidableEq π] {g : Game σ α π κ}
    {t : MonteCarloTree κ π} {cur : π} {a : α} {rest : List α} {s : σ} {bA : Option α}
    {bX : WithBot Int} {c : MonteCarloNode π} {e : Int}
    (h : t.findNode (g.hash (g.play s a)) = some c) (hu : c.utility = .Approximate e) :
    bestActionGo g t cur (a :: rest) s bA bX =
      if bX < ((e : Int) : WithBot Int) then
        bestActionGo g t cur rest (g.undo (g.play s a)) (some a) ((e : Int) : WithBot Int)
      else bestActionGo g t cur rest (g.undo (g.play s a)) bA bX := by
  simp only [bestActionGo, h, hu]

lemma childUtil_none_iff [DecidableEq κ] {g : Game σ α π κ} {t : MonteCarloTree κ π}
    {s : σ} {a : α} :
    childUtil g t s a = none ↔ t.findNode (g.hash (g.play s a)) = none := by
  simp [childUtil, utilAt]

lemma childUtil_some_iff [DecidableEq κ] {g : Game σ α π κ} {t : MonteCarloTree κ π}
    {s : σ} {a : α} {u : Utility π} :
    childUtil g t s a = some u ↔
      ∃ c, t.findNode (g.hash (g.play s a)) = some c ∧ c.utility = u := by
  simp [childUtil, utilAt]


lemma bestActionGo_all_fallback [DecidableEq κ] [DecidableEq π] {g : Game σ α π κ}
    {t : MonteCarloTree κ π} {cur : π} (hup : UndoPlay g) :
    ∀ (l : List α) (s : σ) (bA : Option α), l ≠ [] →
      (∀ a ∈ l, FallbackChild g t s a) →
      bestActionGo g t cur l s bA ⊥ = l.getLast? := by
  intro l
  induction l with
  | nil => intro s bA hl _; exact absurd rfl hl
  | cons a rest ih =>
    intro s bA _ hf
    have hroot := hf a (List.mem_cons_self a rest)
    have hstep : bestActionGo g t cur (a :: rest) s bA ⊥ =
        bestActionGo g t cur rest (g.undo (g.play s a)) (some a) ⊥ := by
      rcases hroot with h0 | h1 | h2
      · rw [bestActionGo_cons_none (childUtil_none_iff.mp h0)]
        simp
      · obtain ⟨c, hc, hu⟩ := childUtil_some_iff.mp h1
        rw [bestActionGo_cons_unknown hc hu]
        simp
      · obtain ⟨c, hc, hu⟩ := childUtil_some_iff.mp h2
        rw [bestActionGo_cons_draw hc hu]
        simp
    rw [hstep, hup s a]
    rcases hrest : rest with _ | ⟨b, rest'⟩
    · simp [bestActionGo]
    · rw [← hrest]
      have hne : rest ≠ [] := by rw [hrest]; exact List.cons_ne_nil _ _
      rw [ih s (some a) hne fun b hb => hf b (List.mem_cons_of_mem a hb)]
      rw [hrest, List.getLast?_cons_cons]

lemma bestActionGo_keep_of_not_lt [DecidableEq κ] [DecidableEq π] {g : Game σ α π κ}
    {t : MonteCarloTree κ π} {cur : π} (hup : UndoPlay g) :
    ∀ (l : List α) (s : σ) (a0 : α) (e : Int),
      (∀ b ∈ l, childUtil g t s b = some (.Approximate e)) →
      bestActionGo g t cur l s (some a0) ((e : Int) : WithBot Int) = some a0 := by
  intro l
  induction l with
  | nil => intro s a0 e _; simp [bestActionGo]
  | cons b rest ih =>
    intro s a0 e hall
    obtain ⟨c, hc, hu⟩ := childUtil_some_iff.mp (hall b (List.mem_cons_self b rest))
    rw [bestActionGo_cons_approx hc hu, if_neg (lt_irrefl _), hup s b]
    exact ih s a0 e fun x hx => hall x (List.mem_cons_of_mem b hx)

/-- C8 (amended): ties among equal `Approximate` children resolve to the first
action in `actions()` order, but ties among fallback candidates (draw, unknown
node, unexplored child) resolve to the **last** such action, because the
fallback branches overwrite `best_action` unconditionally. -/
theorem bestAction_tie_breaking [DecidableEq κ] [DecidableEq π] (g : Game σ α π κ)
    (t : MonteCarloTree κ π) (s : σ) (hup : UndoPlay g) :
    ((∀ a ∈ g.actions s, FallbackChild g t s a) →
        bestAction g t s = (g.actions s).getLast?) ∧
    (∀ e : Int, (∀ a ∈ g.actions s, childUtil g t s a = some (.Approximate e)) →
        bestAction g t s = (g.actions s).head?) := by
  constructor
  · intro hf
    rcases hl : g.actions s with _ | ⟨a, rest⟩
    · simp [bestAction, hl, bestActionGo]
    · rw [bestAction, hl]
      rw [bestActionGo_all_fallback hup (a :: rest) s none (List.cons_ne_nil _ _)
        (fun b hb => hf b (hl ▸ hb))]
  · intro e hall
    rcases hl : g.actions s with _ | ⟨a, rest⟩
    · simp [bestAction, hl, bestActionGo]
    · rw [bestAction, hl]
      obtain ⟨c, hc, hu⟩ := childUtil_some_iff.mp
        (hall a (hl ▸ List.mem_cons_self a rest))
      rw [bestActionGo_cons_approx hc hu, if_pos (WithBot.bot_lt_coe _), hup s a]
      rw [bestActionGo_keep_of_not_lt hup rest s a e
        (fun b hb => hall b (hl ▸ List.mem_cons_of_mem a hb))]
      simp




/-- C8 counterexample: with two legal actions and both children unexplored
(equal-priority fallback candidates), `best_action` returns the action
encountered **last** (action 2), not first as claimed. -/
theorem bestAction_tie_first_counterexample :
    gC8.actions [] = [1, 2] ∧
    (MonteCarloTree.new (List Nat) Bool).findNode [1] = none ∧
    (MonteCarloTree.new (List Nat) Bool).findNode [2] = none ∧
    bestAction gC8 (MonteCarloTree.new (List Nat) Bool) [] = some 2 := by
  refine ⟨by decide, by decide, by decide, by decide⟩

theorem bestAction_tie_breaking_witness :
    UndoPlay gC8 ∧
    bestAction gC8 (MonteCarloTree.new (List Nat) Bool) [] = some 2 ∧
    bestAction gC8 tC8x [] = some 1 := by
  refine ⟨fun _ _ => rfl, ?_, ?_⟩
  · have h := (bestAction_tie_breaking gC8 (MonteCarloTree.new (List Nat) Bool) []
      (fun _ _ => rfl)).1 ?_
    · rw [h]; decide
    · intro a ha
      have hact : gC8.actions [] = [1, 2] := by decide
      rw [hact] at ha
      fin_cases ha
      · exact Or.inl (by decide)
      · exact Or.inl (by decide)
  · have h := (bestAction_tie_breaking gC8 tC8x [] (fun _ _ => rfl)).2 7 ?_
    · rw [h]; decide
    · intro a ha
      have hact : gC8.actions [] = [1, 2] := by decide
      rw [hact] at ha
      fin_cases ha
      · decide
      · decide

theorem bestAction_none_iff_witness :
    bestAction gC8 (MonteCarloTree.new (List Nat) Bool) [3] = none :=
  (bestAction_none_iff_actions_nil gC8 (MonteCarloTree.new (List Nat) Bool) [3]).mpr (by decide)

lemma scanGo_cons_missing [DecidableEq κ] [DecidableEq π] [LinearOrder P] {g : Game σ α π κ}
    {pot : Nat → Nat → Int → P} {t : MonteCarloTree κ π} {pv : Nat} {cur : π} {a : α}
    {rest : List α} {s : σ} {bA : Option α} {bP : WithBot P} {bE : Option (ExactUtility π)}
    (h : t.findNode (g.hash (g.play s a)) = none) :
    scanGo g pot t pv cur (a :: rest) s bA bP bE = .brk (g.play s a) := by
  simp only [scanGo, h]

lemma scanGo_cons_unknown [DecidableEq κ] [DecidableEq π] [LinearOrder P] {g : Game σ α π κ}
    {pot : Nat → Nat → Int → P} {t : MonteCarloTree κ π} {pv : Nat} {cur : π} {a : α}
    {rest : List α} {s : σ} {bA : Option α} {bP : WithBot P} {bE : Option (ExactUtility π)}
    {c : MonteCarloNode π} (h : t.findNode (g.hash (g.play s a)) = some c)
    (hu : c.utility = .Unknown) :
    scanGo g pot t pv cur (a :: rest) s bA bP bE = .brk (g.play s a) := by
  simp only [scanGo, h, hu]

lemma scanGo_cons_approx [DecidableEq κ] [DecidableEq π] [LinearOrder P] {g : Game σ α π κ}
    {pot : Nat → Nat → Int → P} {t : MonteCarloTree κ π} {pv : Nat} {cur : π} {a : α}
    {rest : List α} {s : σ} {bA : Option α} {bP : WithBot P} {bE : Option (ExactUtility π)}
    {c : MonteCarloNode π} {e : Int} (h : t.findNode (g.hash (g.play s a)) = some c)
    (hu : c.utility = .Approximate e) :
    scanGo g pot t pv cur (a :: rest) s bA bP bE =
      if bP < ((pot pv c.visits e : P) : WithBot P) then
        scanGo g pot t pv cur rest (g.undo (g.play s a)) (some a)
          ((pot pv c.visits e : P) : WithBot P) bE
      else
        scanGo g pot t pv cur rest (g.undo (g.play s a)) bA bP bE := by
  simp only [scanGo, h, hu]

lemma scanGo_cons_exact [DecidableEq κ] [DecidableEq π] [LinearOrder P] {g : Game σ α π κ}
    {pot : Nat → Nat → Int → P} {t : MonteCarloTree κ π} {pv : Nat} {cur : π} {a : α}
    {rest : List α} {s : σ} {bA : Option α} {bP : WithBot P} {bE : Option (ExactUtility π)}
    {c : MonteCarloNode π} {eu : ExactUtility π} (h : t.findNode (g.hash (g.play s a)) = some c)
    (hu : c.utility = .Exact eu) :
    scanGo g pot t pv cur (a :: rest) s bA bP bE =
      scanGo g pot t pv cur rest (g.undo (g.play s a)) bA bP (updateBE cur bE eu) := by
  simp only [scanGo, h, hu]

lemma scanGo_fin_state [DecidableEq κ] [DecidableEq π] [LinearOrder P] {g : Game σ α π κ}
    {pot : Nat → Nat → Int → P} {t : MonteCarloTree κ π} {pv : Nat} {cur : π}
    (hup : UndoPlay g) :
    ∀ (l : List α) (s : σ) (bA : Option α) (bP : WithBot P) (bE : Option (ExactUtility π))
      (s' : σ) (bA' : Option α) (bP' : WithBot P) (bE' : Option (ExactUtility π)),
      scanGo g pot t pv cur l s bA bP bE = .fin s' bA' bP' bE' → s' = s := by
  intro l
  induction l with
  | nil =>
    intro s bA bP bE s' bA' bP' bE' h
    rw [scanGo] at h
    cases h
    rfl
  | cons a rest ih =>
    intro s bA bP bE s' bA' bP' bE' h
    rcases hf : t.findNode (g.hash (g.play s a)) with _ | c
    · rw [scanGo_cons_missing hf] at h
      cases h
    · rcases hu : c.utility with eu | e | _
      · rw [scanGo_cons_exact hf hu] at h
        rw [ih _ _ _ _ _ _ _ _ h, hup s a]
      · rw [scanGo_cons_approx hf hu] at h
        split at h
        · rw [ih _ _ _ _ _ _ _ _ h, hup s a]
        · rw [ih _ _ _ _ _ _ _ _ h, hup s a]
      · rw [scanGo_cons_unknown hf hu] at h
        cases h

lemma scanGo_brk_state [DecidableEq κ] [DecidableEq π] [LinearOrder P] {g : Game σ α π κ}
    {pot : Nat → Nat → Int → P} {t : MonteCarloTree κ π} {pv : Nat} {cur : π}
    (hup : UndoPlay g) :
    ∀ (l : List α) (s : σ) (bA : Option α) (bP : WithBot P) (bE : Option (ExactUtility π))
      (sB : σ), scanGo g pot t pv cur l s bA bP bE = .brk sB →
      ∃ a, a ∈ l ∧ sB = g.play s a := by
  intro l
  induction l with
  | nil =>
    intro s bA bP bE sB h
    rw [scanGo] at h
    cases h
  | cons a rest ih =>
    intro s bA bP bE sB h
    rcases hf : t.findNode (g.hash (g.play s a)) with _ | c
    · rw [scanGo_cons_missing hf] at h
      cases h
      exact ⟨a, List.mem_cons_self a rest, rfl⟩
    · rcases hu : c.utility with eu | e | _
      · rw [scanGo_cons_exact hf hu] at h
        obtain ⟨b, hb, hsb⟩ := ih _ _ _ _ _ h
        exact ⟨b, List.mem_cons_of_mem a hb, by rw [hsb, hup s a]⟩
      · rw [scanGo_cons_approx hf hu] at h
        split at h
        · obtain ⟨b, hb, hsb⟩ := ih _ _ _ _ _ h
          exact ⟨b, List.mem_cons_of_mem a hb, by rw [hsb, hup s a]⟩
        · obtain ⟨b, hb, hsb⟩ := ih _ _ _ _ _ h
          exact ⟨b, List.mem_cons_of_mem a hb, by rw [hsb, hup s a]⟩
      · rw [scanGo_cons_unknown hf hu] at h
        cases h
        exact ⟨a, List.mem_cons_self a rest, rfl⟩

lemma selLoop_state [DecidableEq κ] [DecidableEq π] [LinearOrder P] {g : Game σ α π κ}
    {pot : Nat → Nat → Int → P} (hup : UndoPlay g) :
    ∀ (fuel : Nat) (t : MonteCarloTree κ π) (s : σ) (vis : List Nat) (s0 : σ),
      g.undo^[vis.length] s = s0 →
      (∀ t' s', selLoop g pot fuel t s vis = some (.solvedRoot t' s') → s' = s0) ∧
      (∀ t' sE visR, selLoop g pot fuel t s vis = some (.expand t' sE visR) →
        g.undo^[visR.length] sE = s0) := by
  intro fuel
  induction fuel with
  | zero =>
    intro t s vis s0 hinv
    constructor
    · intro t' s' h; rw [selLoop] at h; cases h
    · intro t' sE visR h; rw [selLoop] at h; cases h
  | succ fuel ih =>
    intro t s vis s0 hinv
    constructor
    · intro t' s' h
      rw [selLoop] at h
      rcases hidx : t.findIdx (g.hash s) with _ | i
      · simp only [hidx] at h; cases h
      · simp only [hidx] at h
        rcases hget : t.store.get? i with _ | node
        · simp only [hget] at h; cases h
        · simp only [hget] at h
          rcases hscan : scanGo g pot t node.visits (g.currentPlayer s) (g.actions s) s
              none ⊥ none with sB | ⟨s2, bA, bP, bE⟩
          · simp only [hscan] at h; cases h
          · simp only [hscan] at h
            have hs2 : s2 = s := scanGo_fin_state hup _ _ _ _ _ _ _ _ _ hscan
            rcases bA with _ | a
            · rcases bE with _ | be
              · cases h
              · rcases vis with _ | ⟨v, visT⟩
                · cases h
                  rw [hs2]
                  simpa using hinv
                · exact (ih _ _ _ s0 (by
                    rw [hs2, ← Function.iterate_succ_apply]
                    simpa using hinv)).1 _ _ h
            · exact (ih _ _ _ s0 (by
                rw [hs2]
                simp only [List.length_cons, Function.iterate_succ_apply]
                rw [hup s a]
                exact hinv)).1 _ _ h
    · intro t' sE visR h
      rw [selLoop] at h
      rcases hidx : t.findIdx (g.hash s) with _ | i
      · simp only [hidx] at h
        cases h
        exact hinv
      · simp only [hidx] at h
        rcases hget : t.store.get? i with _ | node
        · simp only [hget] at h; cases h
        · simp only [hget] at h
          rcases hscan : scanGo g pot t node.visits (g.currentPlayer s) (g.actions s) s
              none ⊥ none with sB | ⟨s2, bA, bP, bE⟩
          · simp only [hscan] at h
            cases h
            obtain ⟨a, _, hsb⟩ := scanGo_brk_state hup _ _ _ _ _ _ hscan
            rw [hsb]
            simp only [List.length_cons, Function.iterate_succ_apply]
            rw [hup s a]
            exact hinv
          · simp only [hscan] at h
            have hs2 : s2 = s := scanGo_fin_state hup _ _ _ _ _ _ _ _ _ hscan
            rcases bA with _ | a
            · rcases bE with _ | be
              · cases h
              · rcases vis with _ | ⟨v, visT⟩
                · cases h
                · exact (ih _ _ _ s0 (by
                    rw [hs2, ← Function.iterate_succ_apply]
                    simpa using hinv)).2 _ _ _ h
            · exact (ih _ _ _ s0 (by
                rw [hs2]
                simp only [List.length_cons, Function.iterate_succ_apply]
                rw [hup s a]
                exact hinv)).2 _ _ _ h


lemma simOne_state [DecidableEq π] {g : Game σ α π κ} {pick : Nat → Nat} {np : π}
    (hup : UndoPlay g) :
    ∀ (fuel : Nat) (s : σ) (plys ctr : Nat) (r : ℚ) (s1 : σ) (plys2 ctr2 : Nat),
      simOne g pick np fuel s plys ctr = some (r, s1, plys2, ctr2) →
      plys ≤ plys2 ∧ g.undo^[plys2 - plys] s1 = s := by
  have hupf : ∀ (x : σ) (b : α), g.undo (g.play x b) = x := hup
  intro fuel
  induction fuel with
  | zero => intro s plys ctr r s1 plys2 ctr2 h; rw [simOne] at h; cases h
  | succ fuel ih =>
    intro s plys ctr r s1 plys2 ctr2 h
    rw [simOne] at h
    rcases hact : g.actions s with _ | ⟨a0, rest⟩
    · rw [hact] at h; simp at h
    · simp only [hact] at h
      split at h
      · simp only [Option.some.injEq, Prod.mk.injEq] at h
        obtain ⟨-, hs1, hp2, -⟩ := h
        subst hs1
        refine ⟨by omega, ?_⟩
        have h1 : plys2 - plys = 1 := by omega
        rw [h1, Function.iterate_one, hupf]
      · simp only [Option.some.injEq, Prod.mk.injEq] at h
        obtain ⟨-, hs1, hp2, -⟩ := h
        subst hs1
        refine ⟨by omega, ?_⟩
        have h1 : plys2 - plys = 1 := by omega
        rw [h1, Function.iterate_one, hupf]
      · simp only [Option.some.injEq, Prod.mk.injEq] at h
        obtain ⟨-, hs1, hp2, -⟩ := h
        subst hs1
        refine ⟨by omega, ?_⟩
        have h1 : plys2 - plys = 1 := by omega
        rw [h1, Function.iterate_one, hupf]
      · obtain ⟨h1, h2⟩ := ih _ _ _ _ _ _ _ h
        refine ⟨by omega, ?_⟩
        have hk : plys2 - plys = (plys2 - (plys + 1)) + 1 := by omega
        rw [hk, Function.iterate_succ_apply', h2, hupf]

lemma simLoop_state [DecidableEq π] {g : Game σ α π κ} {pick : Nat → Nat} {np : π}
    {fuel : Nat} (hup : UndoPlay g) :
    ∀ (n : Nat) (s : σ) (acc : ℚ) (ctr : Nat) (acc2 : ℚ) (sF : σ) (ctr2 : Nat),
      simLoop g pick np fuel n s acc ctr = some (acc2, sF, ctr2) → sF = s := by
  intro n
  induction n with
  | zero =>
    intro s acc ctr acc2 sF ctr2 h
    rw [simLoop] at h
    simp only [Option.some.injEq, Prod.mk.injEq] at h
    exact h.2.1.symm
  | succ n ih =>
    intro s acc ctr acc2 sF ctr2 h
    rw [simLoop] at h
    rcases hone : simOne g pick np fuel s 0 ctr with _ | ⟨r, s1, plys, ctr1⟩
    · rw [hone] at h; simp at h
    · simp only [hone] at h
      obtain ⟨-, hrest⟩ := simOne_state hup _ _ _ _ _ _ _ _ hone
      simp only [Nat.sub_zero] at hrest
      rw [ih _ _ _ _ _ _ h, hrest]

lemma simulate_state [DecidableEq π] {g : Game σ α π κ} {pick : Nat → Nat}
    {fuel spn : Nat} (hup : UndoPlay g) {s : σ} {playouts : Nat} {u : Utility π}
    {sF : σ} {ctr : Nat} (h : simulate g pick fuel spn s playouts = some (u, sF, ctr)) :
    sF = s := by
  rw [simulate] at h
  rcases hl : simLoop g pick (g.currentPlayer s) fuel playouts s 0 0 with _ | ⟨acc, s2, c2⟩
  · rw [hl] at h; simp at h
  · simp only [hl, Option.map_some', Option.some.injEq, Prod.mk.injEq] at h
    rw [← h.2.1]
    exact simLoop_state hup _ _ _ _ _ _ _ hl

lemma backpropGo_state [DecidableEq π] {g : Game σ α π κ} {u : Utility π} :
    ∀ (vis : List Nat) (s : σ) (store : List (MonteCarloNode π)) (sF : σ)
      (store2 : List (MonteCarloNode π)),
      backpropGo g u vis s store = some (sF, store2) → sF = g.undo^[vis.length] s := by
  intro vis
  induction vis with
  | nil =>
    intro s store sF store2 h
    rw [backpropGo] at h
    simp only [Option.some.injEq, Prod.mk.injEq] at h
    exact h.1.symm
  | cons i rest ih =>
    intro s store sF store2 h
    rw [backpropGo] at h
    simp only [List.length_cons, Function.iterate_succ_apply]
    rcases hget : store.get? i with _ | n
    · simp only [hget] at h
      exact ih _ _ _ _ h
    · simp only [hget] at h
      rcases hu : n.utility with eu | ap | _
      · simp only [hu] at h
        exact ih _ _ _ _ h
      · simp only [hu] at h
        rcases hos : observedScalar g u (g.undo s) with _ | obs
        · rw [hos] at h; simp at h
        · simp only [hos] at h
          exact ih _ _ _ _ h
      · simp only [hu] at h
        exact ih _ _ _ _ h

/-- C3: for every game whose `undo` exactly reverses the most recent `play`,
and for every tree contents, whenever `step` returns, the game state handle it
returns is the very state it was given (in particular its position key is
unchanged).  Stated for an arbitrary potential function, so it covers the
real-valued UCT potential `potentialR` of the code. -/
theorem step_restores_state [DecidableEq κ] [DecidableEq π] [LinearOrder P]
    (g : Game σ α π κ) (pot : Nat → Nat → Int → P) (pick : Nat → Nat)
    (fuelSel fuelSim : Nat) (t : MonteCarloTree κ π) (s : σ)
    (hup : UndoPlay g) (r : MonteCarloTree κ π × σ)
    (hstep : step g pot pick fuelSel fuelSim t s = some r) :
    r.2 = s ∧ g.hash r.2 = g.hash s := by
  suffices h : r.2 = s by exact ⟨h, by rw [h]⟩
  rw [step] at hstep
  rcases hsel : selLoop g pot fuelSel t s [] with _ | out
  · rw [hsel] at hstep; simp at hstep
  · simp only [hsel] at hstep
    rcases out with ⟨t1, s1⟩ | ⟨t1, sE, vis⟩
    · simp only [Option.some.injEq] at hstep
      have := (selLoop_state hup fuelSel t s [] s rfl).1 _ _ hsel
      rw [← hstep]
      exact this
    · have hvis : g.undo^[vis.length] sE = s :=
        (selLoop_state hup fuelSel t s [] s rfl).2 _ _ _ hsel
      rcases hu : g.utility sE with eu | v | _
      · simp only [hu] at hstep
        rcases hbp : backpropGo g (.Exact eu) vis sE
            (t1.insertNew (g.hash sE) ⟨.Exact eu, 1⟩).store with _ | ⟨sF, store2⟩
        · rw [hbp] at hstep; simp at hstep
        · simp only [hbp, Option.some.injEq] at hstep
          rw [← hstep]
          simp only
          rw [backpropGo_state _ _ _ _ _ hbp]
          exact hvis
      · simp only [hu] at hstep
        rcases hbp : backpropGo g (.Approximate v) vis sE
            (t1.insertNew (g.hash sE) ⟨.Approximate v, 1⟩).store with _ | ⟨sF, store2⟩
        · rw [hbp] at hstep; simp at hstep
        · simp only [hbp, Option.some.injEq] at hstep
          rw [← hstep]
          simp only
          rw [backpropGo_state _ _ _ _ _ hbp]
          exact hvis
      · simp only [hu] at hstep
        rcases hsim : simulate g pick fuelSim t1.simulationsPerNode sE
            t1.simulationsPerNode with _ | ⟨usim, sE1, c⟩
        · rw [hsim] at hstep; simp at hstep
        · simp only [hsim, Option.map_some'] at hstep
          have hsE1 : sE1 = sE := simulate_state hup hsim
          rcases hbp : backpropGo g usim vis sE1
              (t1.insertNew (g.hash sE1) ⟨usim, 1⟩).store with _ | ⟨sF, store2⟩
          · rw [hbp] at hstep; simp at hstep
          · simp only [hbp, Option.some.injEq] at hstep
            rw [← hstep]
            simp only
            rw [backpropGo_state _ _ _ _ _ hbp, hsE1]
            exact hvis

theorem step_restores_state_witness :
    UndoPlay gStep ∧ stepResC3.2 = ([] : List Nat) :=
  ⟨fun _ _ => rfl,
   (step_restores_state gStep potZ pickZ 5 5 tStep [] (fun _ _ => rfl) stepResC3
     (by decide)).1⟩

lemma backpropGo_get_not_mem [DecidableEq π] {g : Game σ α π κ} {u : Utility π} :
    ∀ (vis : List Nat) (s : σ) (store : List (MonteCarloNode π)) (sF : σ)
      (store2 : List (MonteCarloNode π)),
      backpropGo g u vis s store = some (sF, store2) →
      ∀ j, j ∉ vis → store2.get? j = store.get? j := by
  intro vis
  induction vis with
  | nil =>
    intro s store sF store2 h j _
    rw [backpropGo] at h
    simp only [Option.some.injEq, Prod.mk.injEq] at h
    rw [← h.2]
  | cons i rest ih =>
    intro s store sF store2 h j hj
    have hji : j ≠ i := fun he => hj (he ▸ List.mem_cons_self i rest)
    have hjr : j ∉ rest := fun he => hj (List.mem_cons_of_mem i he)
    rw [backpropGo] at h
    rcases hget : store.get? i with _ | n
    · simp only [hget] at h
      exact ih _ _ _ _ h j hjr
    · simp only [hget] at h
      rcases hu : n.utility with eu | ap | _
      · simp only [hu] at h
        rw [ih _ _ _ _ h j hjr, List.get?_set_ne _ _ hji.symm]
      · simp only [hu] at h
        rcases hos : observedScalar g u (g.undo s) with _ | obs
        · rw [hos] at h; simp at h
        · simp only [hos] at h
          rw [ih _ _ _ _ h j hjr, List.get?_set_ne _ _ hji.symm]
      · simp only [hu] at h
        rw [ih _ _ _ _ h j hjr, List.get?_set_ne _ _ hji.symm]

lemma backpropGo_pointwise [DecidableEq π] {g : Game σ α π κ} {u : Utility π} :
    ∀ (vis : List Nat) (s : σ) (store : List (MonteCarloNode π)) (sF : σ)
      (store2 : List (MonteCarloNode π)), vis.Nodup →
      backpropGo g u vis s store = some (sF, store2) →
      ∀ (k : Nat) (hk : k < vis.length),
        store2.get? (vis.get ⟨k, hk⟩) =
          (store.get? (vis.get ⟨k, hk⟩)).map
            (backpropUpdate ((observedScalar g u (g.undo^[k + 1] s)).getD 0)) := by
  intro vis
  induction vis with
  | nil => intro s store sF store2 _ _ k hk; exact absurd hk (by simp)
  | cons i rest ih =>
    intro s store sF store2 hnd h k hk
    have hir : i ∉ rest := (List.nodup_cons.mp hnd).1
    have hndr : rest.Nodup := (List.nodup_cons.mp hnd).2
    rw [backpropGo] at h
    rcases hget : store.get? i with _ | n
    · -- dangling index: nothing written at i, recursion proceeds on same store
      simp only [hget] at h
      rcases k with _ | k
      · simp only [List.get]
        rw [backpropGo_get_not_mem _ _ _ _ _ h i hir, hget]
        simp
      · simp only [List.get]
        have := ih _ _ _ _ hndr h k (by simpa using Nat.lt_of_succ_lt_succ hk)
        rw [this]
        simp only [Function.iterate_succ_apply]
    · simp only [hget] at h
      rcases hu : n.utility with eu | ap | _
      · simp only [hu] at h
        rcases k with _ | k
        · simp only [List.get]
          rw [backpropGo_get_not_mem _ _ _ _ _ h i hir,
            List.get?_set_eq, hget]
          simp only [Option.map_some', Option.map]
          rw [backpropUpdate]
          simp only [hu]
          simp [Function.iterate_one]
        · simp only [List.get]
          have := ih _ _ _ _ hndr h k (by simpa using Nat.lt_of_succ_lt_succ hk)
          have hkr : k < rest.length := by simpa using Nat.lt_of_succ_lt_succ hk
          have hmem := List.get_mem rest k hkr
          have hne : i ≠ rest.get ⟨k, hkr⟩ := fun he => hir (he.symm ▸ hmem)
          rw [this, List.get?_set_ne _ _ hne]
          simp only [Function.iterate_succ_apply]
      · simp only [hu] at h
        rcases hos : observedScalar g u (g.undo s) with _ | obs
        · rw [hos] at h; simp at h
        · simp only [hos] at h
          rcases k with _ | k
          · simp only [List.get]
            rw [backpropGo_get_not_mem _ _ _ _ _ h i hir,
              List.get?_set_eq, hget]
            simp only [Option.map_some', Option.map]
            rw [backpropUpdate]
            simp only [hu]
            rw [Function.iterate_one, hos]
            simp
          · simp only [List.get]
            have := ih _ _ _ _ hndr h k (by simpa using Nat.lt_of_succ_lt_succ hk)
            have hkr : k < rest.length := by simpa using Nat.lt_of_succ_lt_succ hk
            have hmem := List.get_mem rest k hkr
            have hne : i ≠ rest.get ⟨k, hkr⟩ := fun he => hir (he.symm ▸ hmem)
            rw [this, List.get?_set_ne _ _ hne]
            simp only [Function.iterate_succ_apply]
      · simp only [hu] at h
        rcases k with _ | k
        · simp only [List.get]
          rw [backpropGo_get_not_mem _ _ _ _ _ h i hir,
            List.get?_set_eq, hget]
          simp only [Option.map_some', Option.map]
          rw [backpropUpdate]
          simp only [hu]
          simp [Function.iterate_one]
        · simp only [List.get]
          have := ih _ _ _ _ hndr h k (by simpa using Nat.lt_of_succ_lt_succ hk)
          have hkr : k < rest.length := by simpa using Nat.lt_of_succ_lt_succ hk
          have hmem := List.get_mem rest k hkr
          have hne : i ≠ rest.get ⟨k, hkr⟩ := fun he => hir (he.symm ▸ hmem)
          rw [this, List.get?_set_ne _ _ hne]
          simp only [Function.iterate_succ_apply]


/-- C10: during backpropagation an observed `Exact(Win(p))` outcome is
re-evaluated at each ancestor against that ancestor's player to move (`+1`
when `p` moves there, `-1` otherwise), while an observed `Approximate` value
is blended into every ancestor with one and the same scalar `v / 32767`,
without any per-ply perspective flip. -/
theorem backprop_perspective [DecidableEq π] (g : Game σ α π κ) (vis : List Nat)
    (hnd : vis.Nodup) :
    (∀ (v : Int) (s : σ) (store sF : _) (store2 : List (MonteCarloNode π)),
      backpropGo g (.Approximate v) vis s store = some (sF, store2) →
      ∀ (k : Nat) (hk : k < vis.length),
        store2.get? (vis.get ⟨k, hk⟩) =
          (store.get? (vis.get ⟨k, hk⟩)).map (backpropUpdate ((v : ℚ) / 32767))) ∧
    (∀ (p : π) (s : σ) (store sF : _) (store2 : List (MonteCarloNode π)),
      backpropGo g (.Exact (.Win p)) vis s store = some (sF, store2) →
      ∀ (k : Nat) (hk : k < vis.length),
        store2.get? (vis.get ⟨k, hk⟩) =
          (store.get? (vis.get ⟨k, hk⟩)).map
            (backpropUpdate
              (if p = g.currentPlayer (g.undo^[k + 1] s) then 1 else -1))) := by
  constructor
  · intro v s store sF store2 h k hk
    have := backpropGo_pointwise vis s store sF store2 hnd h k hk
    rw [this]
    simp [observedScalar]
  · intro p s store sF store2 h k hk
    have := backpropGo_pointwise vis s store sF store2 hnd h k hk
    rw [this]
    simp [observedScalar]

theorem backprop_perspective_witness :
    ([0] : List Nat).Nodup ∧
    backpropGo gStep (.Exact (.Win true)) [0] [4] [⟨.Exact .Draw, 2⟩] =
      some ([], [⟨.Exact .Draw, 3⟩]) ∧
    ([⟨.Exact .Draw, 3⟩] : List (MonteCarloNode Bool)).get? 0 =
      (([⟨.Exact .Draw, 2⟩] : List (MonteCarloNode Bool)).get? 0).map
        (backpropUpdate
          (if true = gStep.currentPlayer (gStep.undo^[0 + 1] [4]) then 1 else -1)) :=
  ⟨by decide, by decide,
   (backprop_perspective gStep [0] (by decide)).2 true [4] [⟨.Exact .Draw, 2⟩] []
     [⟨.Exact .Draw, 3⟩] (by decide) 0 (by decide)⟩


lemma mem_modifyIdx {β : Type} {f : β → β} {n : β} :
    ∀ (store : List β) (i : Nat), n ∈ modifyIdx f store i →
      n ∈ store ∨ ∃ m, m ∈ store ∧ n = f m := by
  intro store
  induction store with
  | nil => intro i h; rw [modifyIdx] at h; cases h
  | cons b rest ih =>
    intro i h
    rcases i with _ | j
    · rw [modifyIdx] at h
      rcases List.mem_cons.mp h with he | hr
      · exact Or.inr ⟨b, List.mem_cons_self b rest, he⟩
      · exact Or.inl (List.mem_cons_of_mem b hr)
    · rw [modifyIdx] at h
      rcases List.mem_cons.mp h with he | hr
      · exact Or.inl (he ▸ List.mem_cons_self b rest)
      · rcases ih j hr with hm | ⟨m, hm, he⟩
        · exact Or.inl (List.mem_cons_of_mem b hm)
        · exact Or.inr ⟨m, List.mem_cons_of_mem b hm, he⟩

lemma simulate_approx [DecidableEq π] {g : Game σ α π κ} {pick : Nat → Nat}
    {fuel spn : Nat} {s : σ} {playouts : Nat} {u : Utility π} {sF : σ} {ctr : Nat}
    (h : simulate g pick fuel spn s playouts = some (u, sF, ctr)) :
    ∃ v, u = .Approximate v := by
  rw [simulate] at h
  rcases hl : simLoop g pick (g.currentPlayer s) fuel playouts s 0 0 with _ | ⟨acc, s2, c2⟩
  · rw [hl] at h; simp at h
  · simp only [hl, Option.map_some', Option.some.injEq, Prod.mk.injEq] at h
    exact ⟨_, h.1.symm⟩

lemma selLoop_succ_inv [DecidableEq κ] [DecidableEq π] [LinearOrder P]
    {g : Game σ α π κ} {pot : Nat → Nat → Int → P} {fuel : Nat}
    {t : MonteCarloTree κ π} {s : σ} {vis : List Nat} {out : SelOut σ κ π}
    (h : selLoop g pot (fuel + 1) t s vis = some out) :
    (t.findIdx (g.hash s) = none ∧ out = .expand t s vis) ∨
    (∃ i node, t.findIdx (g.hash s) = some i ∧ t.store.get? i = some node ∧
      ((∃ sB, scanGo g pot t node.visits (g.currentPlayer s) (g.actions s) s none ⊥ none =
          .brk sB ∧ out = .expand t sB (i :: vis)) ∨
       (∃ s2 a bP bE, scanGo g pot t node.visits (g.currentPlayer s) (g.actions s) s
          none ⊥ none = .fin s2 (some a) bP bE ∧
          selLoop g pot fuel t (g.play s2 a) (i :: vis) = some out) ∨
       (∃ s2 bP be, scanGo g pot t node.visits (g.currentPlayer s) (g.actions s) s
          none ⊥ none = .fin s2 none bP (some be) ∧
          ((vis = [] ∧
            out = .solvedRoot (t.mutate i fun n => { n with utility := .Exact be }) s2) ∨
           (∃ v visT, vis = v :: visT ∧
            selLoop g pot fuel (t.mutate i fun n => { n with utility := .Exact be })
              (g.undo s2) visT = some out))))) := by
  rw [selLoop] at h
  rcases hidx : t.findIdx (g.hash s) with _ | i
  · simp only [hidx, Option.some.injEq] at h
    exact Or.inl ⟨rfl, h.symm⟩
  · simp only [hidx] at h
    rcases hget : t.store.get? i with _ | node
    · rw [hget] at h; simp at h
    · simp only [hget] at h
      refine Or.inr ⟨i, node, rfl, hget, ?_⟩
      rcases hscan : scanGo g pot t node.visits (g.currentPlayer s) (g.actions s) s
          none ⊥ none with sB | ⟨s2, bA, bP, bE⟩
      · simp only [hscan, Option.some.injEq] at h
        exact Or.inl ⟨sB, rfl, h.symm⟩
      · simp only [hscan] at h
        rcases bA with _ | a
        · rcases bE with _ | be
          · simp at h
          · refine Or.inr (Or.inr ⟨s2, bP, be, rfl, ?_⟩)
            rcases vis with _ | ⟨v, visT⟩
            · simp only [Option.some.injEq] at h
              exact Or.inl ⟨rfl, h.symm⟩
            · exact Or.inr ⟨v, visT, rfl, h⟩
        · exact Or.inr (Or.inl ⟨s2, a, bP, bE, rfl, h⟩)

lemma selLoop_no_unknown [DecidableEq κ] [DecidableEq π] [LinearOrder P]
    {g : Game σ α π κ} {pot : Nat → Nat → Int → P} :
    ∀ (fuel : Nat) (t : MonteCarloTree κ π) (s : σ) (vis : List Nat)
      (out : SelOut σ κ π), selLoop g pot fuel t s vis = some out →
      (∀ n ∈ t.store, n.utility ≠ .Unknown) →
      (∀ t' s', out = .solvedRoot t' s' → ∀ n ∈ t'.store, n.utility ≠ .Unknown) ∧
      (∀ t' sE visR, out = .expand t' sE visR → ∀ n ∈ t'.store, n.utility ≠ .Unknown) := by
  intro fuel
  induction fuel with
  | zero => intro t s vis out h _; rw [selLoop] at h; cases h
  | succ fuel ih =>
    intro t s vis out h ht
    have hmut : ∀ (i : Nat) (be : ExactUtility π),
        ∀ n ∈ (t.mutate i (fun n => { n with utility := .Exact be })).store,
          n.utility ≠ .Unknown := by
      intro i be n hn
      rcases mem_modifyIdx _ _ hn with hm | ⟨m, _, he⟩
      · exact ht n hm
      · rw [he]; simp
    rcases selLoop_succ_inv h with ⟨_, hout⟩ | ⟨i, node, _, _, hcase⟩
    · constructor
      · intro t' s' he; rw [hout] at he; cases he
      · intro t' sE visR he
        rw [hout] at he
        cases he
        exact ht
    · rcases hcase with ⟨sB, _, hout⟩ | ⟨s2, a, bP, bE, _, hrec⟩ | ⟨s2, bP, be, _, hcont⟩
      · constructor
        · intro t' s' he; rw [hout] at he; cases he
        · intro t' sE visR he
          rw [hout] at he
          cases he
          exact ht
      · exact ih _ _ _ _ hrec ht
      · rcases hcont with ⟨_, hout⟩ | ⟨v, visT, _, hrec⟩
        · constructor
          · intro t' s' he
            rw [hout] at he
            cases he
            exact hmut i be
          · intro t' sE visR he; rw [hout] at he; cases he
        · exact ih _ _ _ _ hrec (hmut i be)

lemma backpropGo_no_unknown [DecidableEq π] {g : Game σ α π κ} {u : Utility π} :
    ∀ (vis : List Nat) (s : σ) (store : List (MonteCarloNode π)) (sF : σ)
      (store2 : List (MonteCarloNode π)),
      backpropGo g u vis s store = some (sF, store2) →
      (∀ n ∈ store, n.utility ≠ .Unknown) →
      ∀ n ∈ store2, n.utility ≠ .Unknown := by
  intro vis
  induction vis with
  | nil =>
    intro s store sF store2 h hst
    rw [backpropGo] at h
    simp only [Option.some.injEq, Prod.mk.injEq] at h
    exact h.2 ▸ hst
  | cons i rest ih =>
    intro s store sF store2 h hst
    rw [backpropGo] at h
    rcases hget : store.get? i with _ | n
    · simp only [hget] at h
      exact ih _ _ _ _ h hst
    · simp only [hget] at h
      rcases hu : n.utility with eu | ap | _
      · simp only [hu] at h
        refine ih _ _ _ _ h ?_
        intro m hm
        rcases List.mem_or_eq_of_mem_set hm with hmm | he
        · exact hst m hmm
        · rw [he]; simp
      · simp only [hu] at h
        rcases hos : observedScalar g u (g.undo s) with _ | obs
        · rw [hos] at h; simp at h
        · simp only [hos] at h
          refine ih _ _ _ _ h ?_
          intro m hm
          rcases List.mem_or_eq_of_mem_set hm with hmm | he
          · exact hst m hmm
          · rw [he]; simp
      · exact absurd hu (hst n (List.get?_mem hget))

/-- C9: every node ever stored in the tree's node table is `Exact` or
`Approximate`, never `Unknown`: if the store holds no `Unknown` utility before
a `step`, it holds none afterwards — expansion inserts the game's non-`Unknown`
utility or the `Approximate` result of `simulate`, the selection-phase solving
write stores `Exact`, and backpropagation writes only `Approximate` blends. -/
theorem step_never_stores_unknown [DecidableEq κ] [DecidableEq π] [LinearOrder P]
    (g : Game σ α π κ) (pot : Nat → Nat → Int → P) (pick : Nat → Nat)
    (fuelSel fuelSim : Nat) (t : MonteCarloTree κ π) (s : σ)
    (r : MonteCarloTree κ π × σ)
    (hstore : ∀ n ∈ t.store, n.utility ≠ .Unknown)
    (hstep : step g pot pick fuelSel fuelSim t s = some r) :
    ∀ n ∈ r.1.store, n.utility ≠ .Unknown := by
  rw [step] at hstep
  rcases hsel : selLoop g pot fuelSel t s [] with _ | out
  · rw [hsel] at hstep; simp at hstep
  · simp only [hsel] at hstep
    rcases out with ⟨t1, s1⟩ | ⟨t1, sE, vis⟩
    · simp only [Option.some.injEq] at hstep
      rw [← hstep]
      exact (selLoop_no_unknown fuelSel t s [] _ hsel hstore).1 _ _ rfl
    · have ht1 : ∀ n ∈ t1.store, n.utility ≠ .Unknown :=
        (selLoop_no_unknown fuelSel t s [] _ hsel hstore).2 _ _ _ rfl
      have hins : ∀ (u : Utility π) (sE1 : σ), u ≠ .Unknown →
          ∀ n ∈ (t1.insertNew (g.hash sE1) ⟨u, 1⟩).store, n.utility ≠ .Unknown := by
        intro u sE1 hu n hn
        rcases List.mem_append.mp hn with hm | hm
        · exact ht1 n hm
        · simp only [List.mem_singleton] at hm
          rw [hm]
          exact hu
      rcases hu : g.utility sE with eu | v | _
      · simp only [hu] at hstep
        rcases hbp : backpropGo g (.Exact eu) vis sE
            (t1.insertNew (g.hash sE) ⟨.Exact eu, 1⟩).store with _ | ⟨sF, store2⟩
        · rw [hbp] at hstep; simp at hstep
        · simp only [hbp, Option.some.injEq] at hstep
          rw [← hstep]
          exact backpropGo_no_unknown _ _ _ _ _ hbp (hins _ _ (by simp))
      · simp only [hu] at hstep
        rcases hbp : backpropGo g (.Approximate v) vis sE
            (t1.insertNew (g.hash sE) ⟨.Approximate v, 1⟩).store with _ | ⟨sF, store2⟩
        · rw [hbp] at hstep; simp at hstep
        · simp only [hbp, Option.some.injEq] at hstep
          rw [← hstep]
          exact backpropGo_no_unknown _ _ _ _ _ hbp (hins _ _ (by simp))
      · simp only [hu] at hstep
        rcases hsim : simulate g pick fuelSim t1.simulationsPerNode sE
            t1.simulationsPerNode with _ | ⟨usim, sE1, c⟩
        · rw [hsim] at hstep; simp at hstep
        · simp only [hsim, Option.map_some'] at hstep
          obtain ⟨v, hv⟩ := simulate_approx hsim
          rcases hbp : backpropGo g usim vis sE1
              (t1.insertNew (g.hash sE1) ⟨usim, 1⟩).store with _ | ⟨sF, store2⟩
          · rw [hbp] at hstep; simp at hstep
          · simp only [hbp, Option.some.injEq] at hstep
            rw [← hstep]
            exact backpropGo_no_unknown _ _ _ _ _ hbp (hins _ _ (by rw [hv]; simp))

theorem step_never_stores_unknown_witness :
    (∀ n ∈ tStep.store, n.utility ≠ .Unknown) ∧
    (∀ n ∈ stepResC3.1.store, n.utility ≠ .Unknown) :=
  ⟨by decide,
   step_never_stores_unknown gStep potZ pickZ 5 5 tStep [] stepResC3
     (by decide) (by decide)⟩

lemma modifyIdx_length {β : Type} {f : β → β} :
    ∀ (l : List β) (i : Nat), (modifyIdx f l i).length = l.length := by
  intro l
  induction l with
  | nil => intro i; rw [modifyIdx]
  | cons b rest ih =>
    intro i
    rcases i with _ | j
    · simp [modifyIdx]
    · rw [modifyIdx, List.length_cons, List.length_cons, ih]

lemma modifyIdx_get? {β : Type} {f : β → β} :
    ∀ (l : List β) (i j : Nat),
      (modifyIdx f l i).get? j = if j = i then (l.get? i).map f else l.get? j := by
  intro l
  induction l with
  | nil => intro i j; rw [modifyIdx]; simp
  | cons b rest ih =>
    intro i j
    rcases i with _ | i'
    · rcases j with _ | j'
      · simp [modifyIdx]
      · simp [modifyIdx]
    · rcases j with _ | j'
      · simp [modifyIdx]
      · simp only [modifyIdx, List.get?_cons_succ, ih, Nat.succ_eq_add_one]
        by_cases hji : j' = i'
        · simp [hji]
        · simp [hji, fun h => hji (Nat.succ_injective h)]

lemma lookupKey_mem [DecidableEq κ] {k : κ} {i : Nat} :
    ∀ {entries : List (κ × Nat)}, lookupKey k entries = some i → (k, i) ∈ entries := by
  intro entries
  induction entries with
  | nil => intro h; rw [lookupKey] at h; cases h
  | cons p rest ih =>
    intro h
    rw [lookupKey] at h
    by_cases hk : p.1 = k
    · rw [if_pos hk] at h
      cases h
      have he : (k, p.2) = p := by rw [← hk]
      rw [he]
      exact List.mem_cons_self _ _
    · rw [if_neg hk] at h
      exact List.mem_cons_of_mem _ (ih h)

lemma lookupKey_bindKey_self [DecidableEq κ] {k : κ} {i : Nat} :
    ∀ (entries : List (κ × Nat)), lookupKey k (bindKey k i entries) = some i := by
  intro entries
  induction entries with
  | nil => simp [bindKey, lookupKey]
  | cons p rest ih =>
    rw [bindKey]
    by_cases hk : p.1 = k
    · rw [if_pos hk, lookupKey, if_pos rfl]
    · rw [if_neg hk, lookupKey, if_neg hk, ih]

lemma backpropGo_length [DecidableEq π] {g : Game σ α π κ} {u : Utility π} :
    ∀ (vis : List Nat) (s : σ) (store : List (MonteCarloNode π)) (sF : σ)
      (store2 : List (MonteCarloNode π)),
      backpropGo g u vis s store = some (sF, store2) → store2.length = store.length := by
  intro vis
  induction vis with
  | nil =>
    intro s store sF store2 h
    rw [backpropGo] at h
    simp only [Option.some.injEq, Prod.mk.injEq] at h
    rw [← h.2]
  | cons i rest ih =>
    intro s store sF store2 h
    rw [backpropGo] at h
    rcases hget : store.get? i with _ | n
    · simp only [hget] at h
      exact ih _ _ _ _ h
    · simp only [hget] at h
      rcases hu : n.utility with eu | ap | _
      · simp only [hu] at h
        rw [ih _ _ _ _ h, List.length_set]
      · simp only [hu] at h
        rcases hos : observedScalar g u (g.undo s) with _ | obs
        · rw [hos] at h; simp at h
        · simp only [hos] at h
          rw [ih _ _ _ _ h, List.length_set]
      · simp only [hu] at h
        rw [ih _ _ _ _ h, List.length_set]

lemma backpropGo_visits [DecidableEq π] {g : Game σ α π κ} {u : Utility π} :
    ∀ (vis : List Nat) (s : σ) (store : List (MonteCarloNode π)) (sF : σ)
      (store2 : List (MonteCarloNode π)),
      backpropGo g u vis s store = some (sF, store2) →
      ∀ j, (store2.get? j).map (·.visits) =
        (store.get? j).map (fun n => n.visits + vis.count j) := by
  intro vis
  induction vis with
  | nil =>
    intro s store sF store2 h j
    rw [backpropGo] at h
    simp only [Option.some.injEq, Prod.mk.injEq] at h
    rw [← h.2]
    simp
  | cons i rest ih =>
    intro s store sF store2 h j
    rw [backpropGo] at h
    rcases hget : store.get? i with _ | n
    · simp only [hget] at h
      rw [ih _ _ _ _ h j]
      by_cases hji : j = i
      · rw [hji, hget]
        simp
      · have hcnt : List.count j (i :: rest) = List.count j rest := by
          simp [List.count_cons, beq_iff_eq, show ¬ i = j from fun hh => hji hh.symm]
        rw [hcnt]
    · simp only [hget] at h
      rcases hu : n.utility with eu | ap | _
      · simp only [hu] at h
        rw [ih _ _ _ _ h j]
        by_cases hji : j = i
        · subst hji
          rw [List.get?_set_eq, hget]
          simp [List.count_cons]
          omega
        · rw [List.get?_set_ne _ _ (fun he => hji he.symm)]
          have hcnt : List.count j (i :: rest) = List.count j rest := by
            simp [List.count_cons, beq_iff_eq, show ¬ i = j from fun hh => hji hh.symm]
          rw [hcnt]
      · simp only [hu] at h
        rcases hos : observedScalar g u (g.undo s) with _ | obs
        · rw [hos] at h; simp at h
        · simp only [hos] at h
          rw [ih _ _ _ _ h j]
          by_cases hji : j = i
          · subst hji
            rw [List.get?_set_eq, hget]
            simp [List.count_cons]
            omega
          · rw [List.get?_set_ne _ _ (fun he => hji he.symm)]
            have hcnt : List.count j (i :: rest) = List.count j rest := by
              simp [List.count_cons, beq_iff_eq, show ¬ i = j from fun hh => hji hh.symm]
            rw [hcnt]
      · simp only [hu] at h
        rw [ih _ _ _ _ h j]
        by_cases hji : j = i
        · subst hji
          rw [List.get?_set_eq, hget]
          simp [List.count_cons]
          omega
        · rw [List.get?_set_ne _ _ (fun he => hji he.symm)]
          have hcnt : List.count j (i :: rest) = List.count j rest := by
            simp [List.count_cons, beq_iff_eq, show ¬ i = j from fun hh => hji hh.symm]
          rw [hcnt]


lemma selLoop_frame [DecidableEq κ] [DecidableEq π] [LinearOrder P]
    {g : Game σ α π κ} {pot : Nat → Nat → Int → P} :
    ∀ (fuel : Nat) (t : MonteCarloTree κ π) (s : σ) (vis : List Nat)
      (out : SelOut σ κ π), selLoop g pot fuel t s vis = some out →
      out.tree.nodes = t.nodes ∧
      out.tree.simulationsPerNode = t.simulationsPerNode ∧
      out.tree.store.length = t.store.length ∧
      (∀ j, (out.tree.store.get? j).map (·.visits) = (t.store.get? j).map (·.visits)) ∧
      (∀ t1 sE visR, out = .expand t1 sE visR →
        ∀ j ∈ visR, j ∈ vis ∨ ∃ k, lookupKey k t.nodes = some j) := by
  intro fuel
  induction fuel with
  | zero => intro t s vis out h; rw [selLoop] at h; cases h
  | succ fuel ih =>
    intro t s vis out h
    rcases selLoop_succ_inv h with ⟨hidx, hout⟩ | ⟨i, node, hidx, hget, hcase⟩
    · subst hout
      exact ⟨rfl, rfl, rfl, fun j => rfl, by
        intro t1 sE visR he j hj
        cases he
        exact Or.inl hj⟩
    · rcases hcase with ⟨sB, hscan, hout⟩ | ⟨s2, a, bP, bE, hscan, hrec⟩ |
        ⟨s2, bP, be, hscan, hcont⟩
      · subst hout
        refine ⟨rfl, rfl, rfl, fun j => rfl, ?_⟩
        intro t1 sE visR he j hj
        cases he
        rcases List.mem_cons.mp hj with hji | hjv
        · exact Or.inr ⟨g.hash s, hji ▸ hidx⟩
        · exact Or.inl hjv
      · obtain ⟨h1, h2, h3, h4, h5⟩ := ih _ _ _ _ hrec
        refine ⟨h1, h2, h3, h4, ?_⟩
        intro t1 sE visR he j hj
        rcases h5 t1 sE visR he j hj with hjv | hk
        · rcases List.mem_cons.mp hjv with hji | hjv'
          · exact Or.inr ⟨g.hash s, hji ▸ hidx⟩
          · exact Or.inl hjv'
        · exact Or.inr hk
      · rcases hcont with ⟨hvis, hout⟩ | ⟨v, visT, hvis, hrec⟩
        · subst hout
          refine ⟨rfl, rfl, ?_, ?_, ?_⟩
          · exact modifyIdx_length _ _
          · intro j
            show ((modifyIdx _ t.store i).get? j).map _ = _
            rw [modifyIdx_get?]
            by_cases hji : j = i
            · subst hji
              rcases hn : t.store.get? j with _ | m
              · simp [hn]
              · simp [hn]
            · rw [if_neg hji]
          · intro t1 sE visR he
            cases he
        · obtain ⟨h1, h2, h3, h4, h5⟩ := ih _ _ _ _ hrec
          have hmn : (t.mutate i fun n => { n with utility := .Exact be }).nodes =
              t.nodes := rfl
          refine ⟨h1.trans hmn, h2, ?_, ?_, ?_⟩
          · rw [h3]
            exact modifyIdx_length _ _
          · intro j
            rw [h4 j]
            show ((modifyIdx _ t.store i).get? j).map _ = _
            rw [modifyIdx_get?]
            by_cases hji : j = i
            · subst hji
              rcases hn : t.store.get? j with _ | m
              · simp [hn]
              · simp [hn]
            · rw [if_neg hji]
          · intro t1 sE visR he j hj
            rcases h5 t1 sE visR he j hj with hjv | ⟨k, hk⟩
            · exact Or.inl (hvis ▸ List.mem_cons_of_mem v hjv)
            · exact Or.inr ⟨k, hk⟩


lemma expand_insert_aux [DecidableEq κ] [DecidableEq π] {g : Game σ α π κ}
    {t t1 : MonteCarloTree κ π} {sE : σ} {vis : List Nat} {u0 : Utility π}
    {sF : σ} {store2 : List (MonteCarloNode π)}
    (hlen : t1.store.length = t.store.length)
    (hvis : ∀ j, (t1.store.get? j).map (·.visits) = (t.store.get? j).map (·.visits))
    (hbound : ∀ j ∈ vis, j < t.store.length)
    (hbp : backpropGo g u0 vis sE (t1.insertNew (g.hash sE) ⟨u0, 1⟩).store =
      some (sF, store2)) :
    store2.length = t.store.length + 1 ∧
    store2.get? t.store.length = some ⟨u0, 1⟩ ∧
    (∀ j n, t.store.get? j = some n → ∃ n', store2.get? j = some n' ∧
      n'.visits = n.visits + vis.count j) := by
  have hstore : (t1.insertNew (g.hash sE) ⟨u0, 1⟩).store = t1.store ++ [⟨u0, 1⟩] := rfl
  refine ⟨?_, ?_, ?_⟩
  · rw [backpropGo_length _ _ _ _ _ hbp, hstore, List.length_append, hlen]
    rfl
  · have hnotmem : t.store.length ∉ vis := fun hmem => absurd (hbound _ hmem) (lt_irrefl _)
    rw [backpropGo_get_not_mem _ _ _ _ _ hbp _ hnotmem, hstore, ← hlen,
      List.get?_concat_length]
  · intro j n hj
    have hjlt : j < t.store.length := by
      by_contra hge
      rw [List.get?_eq_none.mpr (Nat.le_of_not_lt hge)] at hj
      cases hj
    have h1 : (t1.store.get? j).map (·.visits) = some n.visits := by
      rw [hvis j, hj]
      rfl
    obtain ⟨n1, hn1, hn1v⟩ := Option.map_eq_some'.mp h1
    have happ : (t1.store ++ [(⟨u0, 1⟩ : MonteCarloNode π)]).get? j = some n1 := by
      rw [List.get?_append (by rw [hlen]; exact hjlt), hn1]
    have h2 := backpropGo_visits _ _ _ _ _ hbp j
    rw [hstore, happ] at h2
    simp only [Option.map_some'] at h2
    obtain ⟨n', hn', hn'v⟩ := Option.map_eq_some'.mp h2
    exact ⟨n', hn', by rw [hn'v, hn1v]⟩

/-- C5: every `step` call that reaches the expansion phase inserts exactly one
new node — created as `{utility, visits = 1}` with a non-`Unknown` utility and
keyed by the expanded position — and increments the visit count of each
ancestor node in the backpropagated list once per occurrence in that list. -/
theorem step_expansion_inserts_one [DecidableEq κ] [DecidableEq π] [LinearOrder P]
    (g : Game σ α π κ) (pot : Nat → Nat → Int → P) (pick : Nat → Nat)
    (fuelSel fuelSim : Nat) (t t1 : MonteCarloTree κ π) (s sE : σ) (vis : List Nat)
    (r : MonteCarloTree κ π × σ)
    (hup : UndoPlay g) (hwf : TreeWf t)
    (hsel : selLoop g pot fuelSel t s [] = some (.expand t1 sE vis))
    (hstep : step g pot pick fuelSel fuelSim t s = some r) :
    r.1.store.length = t.store.length + 1 ∧
    (∃ u, u ≠ .Unknown ∧ r.1.store.get? t.store.length = some ⟨u, 1⟩) ∧
    r.1.findIdx (g.hash sE) = some t.store.length ∧
    (∀ j n, t.store.get? j = some n → ∃ n', r.1.store.get? j = some n' ∧
      n'.visits = n.visits + vis.count j) := by
  obtain ⟨hn1, hs1, hl1, hv1, hp1⟩ := selLoop_frame fuelSel t s [] _ hsel
  simp only [SelOut.tree] at hn1 hs1 hl1 hv1
  have hbound : ∀ j ∈ vis, j < t.store.length := by
    intro j hj
    rcases hp1 t1 sE vis rfl j hj with hin | ⟨k, hk⟩
    · cases hin
    · exact hwf _ (lookupKey_mem hk)
  rw [step] at hstep
  simp only [hsel] at hstep
  rcases hu : g.utility sE with eu | v | _
  · simp only [hu] at hstep
    rcases hbp : backpropGo g (.Exact eu) vis sE
        (t1.insertNew (g.hash sE) ⟨.Exact eu, 1⟩).store with _ | ⟨sF, store2⟩
    · rw [hbp] at hstep; simp at hstep
    · simp only [hbp, Option.some.injEq] at hstep
      obtain ⟨ha, hb, hc⟩ := expand_insert_aux hl1 hv1 hbound hbp
      rw [← hstep]
      refine ⟨ha, ⟨.Exact eu, by simp, hb⟩, ?_, hc⟩
      show lookupKey (g.hash sE) (bindKey (g.hash sE) t1.store.length t1.nodes) = _
      rw [lookupKey_bindKey_self, hl1]
  · simp only [hu] at hstep
    rcases hbp : backpropGo g (.Approximate v) vis sE
        (t1.insertNew (g.hash sE) ⟨.Approximate v, 1⟩).store with _ | ⟨sF, store2⟩
    · rw [hbp] at hstep; simp at hstep
    · simp only [hbp, Option.some.injEq] at hstep
      obtain ⟨ha, hb, hc⟩ := expand_insert_aux hl1 hv1 hbound hbp
      rw [← hstep]
      refine ⟨ha, ⟨.Approximate v, by simp, hb⟩, ?_, hc⟩
      show lookupKey (g.hash sE) (bindKey (g.hash sE) t1.store.length t1.nodes) = _
      rw [lookupKey_bindKey_self, hl1]
  · simp only [hu] at hstep
    rcases hsim : simulate g pick fuelSim t1.simulationsPerNode sE
        t1.simulationsPerNode with _ | ⟨usim, sE1, c⟩
    · rw [hsim] at hstep; simp at hstep
    · simp only [hsim, Option.map_some'] at hstep
      have hsE1 : sE1 = sE := simulate_state hup hsim
      subst hsE1
      obtain ⟨v, hv⟩ := simulate_approx hsim
      rcases hbp : backpropGo g usim vis sE1
          (t1.insertNew (g.hash sE1) ⟨usim, 1⟩).store with _ | ⟨sF, store2⟩
      · rw [hbp] at hstep; simp at hstep
      · simp only [hbp, Option.some.injEq] at hstep
        obtain ⟨ha, hb, hc⟩ := expand_insert_aux hl1 hv1 hbound hbp
        rw [← hstep]
        refine ⟨ha, ⟨usim, by rw [hv]; simp, hb⟩, ?_, hc⟩
        show lookupKey (g.hash sE1) (bindKey (g.hash sE1) t1.store.length t1.nodes) = _
        rw [lookupKey_bindKey_self, hl1]


theorem step_expansion_inserts_one_witness :
    UndoPlay gStep ∧
    selLoop gStep potZ 5 tStep ([] : List Nat) [] =
      some (.expand tStep [4] [0]) ∧
    stepResC3.1.store.length = tStep.store.length + 1 :=
  ⟨fun _ _ => rfl, by decide,
   (step_expansion_inserts_one gStep potZ pickZ 5 5 tStep tStep [] [4] [0] stepResC3
     (fun _ _ => rfl) (by intro p hp; fin_cases hp; decide) (by decide) (by decide)).1⟩

lemma ratTrunc_bounds {x : ℚ} {B : Int} (hB : 0 ≤ B) (h1 : -(B : ℚ) ≤ x) (h2 : x ≤ (B : ℚ)) :
    -B ≤ ratTrunc x ∧ ratTrunc x ≤ B := by
  rw [ratTrunc]
  by_cases hx : 0 ≤ x
  · rw [if_pos hx]
    constructor
    · exact le_trans (by omega) (Int.floor_nonneg.mpr hx)
    · calc ⌊x⌋ ≤ ⌊(B : ℚ)⌋ := Int.floor_le_floor h2
        _ = B := Int.floor_intCast B
  · rw [if_neg hx]
    push_neg at hx
    constructor
    · calc -B = ⌈(-B : ℚ)⌉ := by rw [← Int.cast_neg, Int.ceil_intCast]
        _ ≤ ⌈x⌉ := Int.ceil_le_ceil (by linarith)
    · refine le_trans (Int.ceil_le.mpr ?_) hB
      exact_mod_cast hx.le

lemma i16cast_bounds {x : ℚ} (h1 : -32767 ≤ x) (h2 : x ≤ 32767) :
    -32767 ≤ i16cast x ∧ i16cast x ≤ 32767 := by
  obtain ⟨hl, hr⟩ := ratTrunc_bounds (B := 32767) (by norm_num)
    (by push_cast; linarith [h1]) (by push_cast; linarith [h2])
  rw [i16cast]
  omega

lemma blend_bounds {a : Int} {obs : ℚ} (ha1 : -32767 ≤ a) (ha2 : a ≤ 32767)
    (ho1 : -1 ≤ obs) (ho2 : obs ≤ 1) :
    -32767 ≤ blend a obs ∧ blend a obs ≤ 32767 := by
  rw [blend]
  have hq1 : -(32767 : ℚ) ≤ (a : ℚ) := by exact_mod_cast ha1
  have hq2 : (a : ℚ) ≤ 32767 := by exact_mod_cast ha2
  refine i16cast_bounds ?_ ?_
  · nlinarith [hq1, hq2, ho1, ho2]
  · nlinarith [hq1, hq2, ho1, ho2]

lemma observedScalar_bounds [DecidableEq π] {g : Game σ α π κ} {u : Utility π} {s : σ}
    {obs : ℚ} (hu : ApproxInRange u) (h : observedScalar g u s = some obs) :
    -1 ≤ obs ∧ obs ≤ 1 := by
  rcases u with e | v | _
  · rcases e with p | _
    · simp only [observedScalar, Option.some.injEq] at h
      rw [← h]
      by_cases hp : p = g.currentPlayer s
      · rw [if_pos hp]; norm_num
      · rw [if_neg hp]; norm_num
    · simp only [observedScalar, Option.some.injEq] at h
      rw [← h]
      norm_num
  · simp only [observedScalar, Option.some.injEq] at h
    obtain ⟨hv1, hv2⟩ := hu v rfl
    have hq1 : -(32767 : ℚ) ≤ (v : ℚ) := by exact_mod_cast hv1
    have hq2 : (v : ℚ) ≤ 32767 := by exact_mod_cast hv2
    rw [← h]
    constructor
    · rw [neg_le, ← neg_div, div_le_one (by norm_num : (0:ℚ) < 32767)]
      linarith
    · rw [div_le_one (by norm_num : (0:ℚ) < 32767)]
      linarith
  · simp only [observedScalar] at h
    cases h


lemma div_32767_bounds {v : Int} (hv1 : -32767 ≤ v) (hv2 : v ≤ 32767) :
    -1 ≤ (v : ℚ) / 32767 ∧ (v : ℚ) / 32767 ≤ 1 := by
  have hq1 : -(32767 : ℚ) ≤ (v : ℚ) := by exact_mod_cast hv1
  have hq2 : (v : ℚ) ≤ 32767 := by exact_mod_cast hv2
  constructor
  · rw [neg_le, ← neg_div, div_le_one (by norm_num : (0:ℚ) < 32767)]
    linarith
  · rw [div_le_one (by norm_num : (0:ℚ) < 32767)]
    linarith

lemma simOne_result_bounds [DecidableEq π] {g : Game σ α π κ} {pick : Nat → Nat} {np : π}
    (hga : ∀ (s' : σ) v, g.utility s' = .Approximate v → -32767 ≤ v ∧ v ≤ 32767) :
    ∀ (fuel : Nat) (s : σ) (plys ctr : Nat) (r : ℚ) (s1 : σ) (p2 c2 : Nat),
      simOne g pick np fuel s plys ctr = some (r, s1, p2, c2) → -1 ≤ r ∧ r ≤ 1 := by
  intro fuel
  induction fuel with
  | zero => intro s plys ctr r s1 p2 c2 h; rw [simOne] at h; cases h
  | succ fuel ih =>
    intro s plys ctr r s1 p2 c2 h
    rw [simOne] at h
    rcases hact : g.actions s with _ | ⟨a0, rest⟩
    · rw [hact] at h; simp at h
    · simp only [hact] at h
      split at h
      · rename_i p heq
        simp only [Option.some.injEq, Prod.mk.injEq] at h
        obtain ⟨hr, -, -, -⟩ := h
        rw [← hr]
        by_cases hp : p = np
        · rw [if_pos hp]; norm_num
        · rw [if_neg hp]; norm_num
      · simp only [Option.some.injEq, Prod.mk.injEq] at h
        obtain ⟨hr, -, -, -⟩ := h
        rw [← hr]
        norm_num
      · rename_i v heq
        simp only [Option.some.injEq, Prod.mk.injEq] at h
        obtain ⟨hr, -, -, -⟩ := h
        rw [← hr]
        exact div_32767_bounds (hga _ v heq).1 (hga _ v heq).2
      · exact ih _ _ _ _ _ _ _ h

lemma simLoop_acc_bounds [DecidableEq π] {g : Game σ α π κ} {pick : Nat → Nat} {np : π}
    {fuel : Nat}
    (hga : ∀ (s' : σ) v, g.utility s' = .Approximate v → -32767 ≤ v ∧ v ≤ 32767) :
    ∀ (n : Nat) (s : σ) (acc : ℚ) (ctr : Nat) (acc2 : ℚ) (sF : σ) (c2 : Nat),
      simLoop g pick np fuel n s acc ctr = some (acc2, sF, c2) →
      acc - n ≤ acc2 ∧ acc2 ≤ acc + n := by
  intro n
  induction n with
  | zero =>
    intro s acc ctr acc2 sF c2 h
    rw [simLoop] at h
    simp only [Option.some.injEq, Prod.mk.injEq] at h
    rw [← h.1]
    norm_num
  | succ n ih =>
    intro s acc ctr acc2 sF c2 h
    rw [simLoop] at h
    rcases hone : simOne g pick np fuel s 0 ctr with _ | ⟨r, s1, plys, ctr1⟩
    · rw [hone] at h; simp at h
    · simp only [hone] at h
      obtain ⟨hr1, hr2⟩ := simOne_result_bounds hga _ _ _ _ _ _ _ _ hone
      obtain ⟨hl, hr⟩ := ih _ _ _ _ _ _ h
      push_cast
      constructor <;> linarith

lemma simulate_in_range [DecidableEq π] {g : Game σ α π κ} {pick : Nat → Nat}
    {fuel spn : Nat} {s : σ} {u : Utility π} {sF : σ} {c : Nat}
    (hga : ∀ (s' : σ) v, g.utility s' = .Approximate v → -32767 ≤ v ∧ v ≤ 32767)
    (h : simulate g pick fuel spn s spn = some (u, sF, c)) :
    ApproxInRange u := by
  rw [simulate] at h
  rcases hl : simLoop g pick (g.currentPlayer s) fuel spn s 0 0 with _ | ⟨acc, s2, c2⟩
  · rw [hl] at h; simp at h
  · simp only [hl, Option.map_some', Option.some.injEq, Prod.mk.injEq] at h
    obtain ⟨ha1, ha2⟩ := simLoop_acc_bounds hga _ _ _ _ _ _ _ hl
    intro v hv
    rw [← h.1] at hv
    cases hv
    have hq : -1 ≤ acc / (spn : ℚ) ∧ acc / (spn : ℚ) ≤ 1 := by
      rcases Nat.eq_zero_or_pos spn with hz | hpos
      · subst hz
        have : acc = 0 := by push_cast at ha1 ha2; linarith
        rw [this]
        norm_num
      · have hspn : (0 : ℚ) < (spn : ℚ) := by exact_mod_cast hpos
        constructor
        · rw [neg_le, ← neg_div, div_le_one hspn]
          linarith
        · rw [div_le_one hspn]
          linarith
    exact i16cast_bounds (by nlinarith [hq.1, hq.2]) (by nlinarith [hq.1, hq.2])

lemma backpropGo_in_range [DecidableEq π] {g : Game σ α π κ} {u : Utility π}
    (hu : ApproxInRange u) :
    ∀ (vis : List Nat) (s : σ) (store : List (MonteCarloNode π)) (sF : σ)
      (store2 : List (MonteCarloNode π)),
      backpropGo g u vis s store = some (sF, store2) →
      StoreInRange store → StoreInRange store2 := by
  intro vis
  induction vis with
  | nil =>
    intro s store sF store2 h hst
    rw [backpropGo] at h
    simp only [Option.some.injEq, Prod.mk.injEq] at h
    exact h.2 ▸ hst
  | cons i rest ih =>
    intro s store sF store2 h hst
    rw [backpropGo] at h
    rcases hget : store.get? i with _ | n
    · simp only [hget] at h
      exact ih _ _ _ _ h hst
    · simp only [hget] at h
      rcases hnu : n.utility with eu | ap | _
      · simp only [hnu] at h
        refine ih _ _ _ _ h ?_
        intro m hm
        rcases List.mem_or_eq_of_mem_set hm with hmm | he
        · exact hst m hmm
        · rw [he]
          intro v hv
          cases hv
      · simp only [hnu] at h
        rcases hos : observedScalar g u (g.undo s) with _ | obs
        · rw [hos] at h; simp at h
        · simp only [hos] at h
          refine ih _ _ _ _ h ?_
          intro m hm
          rcases List.mem_or_eq_of_mem_set hm with hmm | he
          · exact hst m hmm
          · rw [he]
            intro v hv
            simp only [MonteCarloNode.mk.injEq] at hv
            obtain ⟨ho1, ho2⟩ := observedScalar_bounds hu hos
            obtain ⟨ha1, ha2⟩ := hst n (List.get?_mem hget) ap hnu
            cases hv
            exact blend_bounds ha1 ha2 ho1 ho2
      · simp only [hnu] at h
        refine ih _ _ _ _ h ?_
        intro m hm
        rcases List.mem_or_eq_of_mem_set hm with hmm | he
        · exact hst m hmm
        · rw [he]
          intro v hv
          cases hv

lemma selLoop_in_range [DecidableEq κ] [DecidableEq π] [LinearOrder P]
    {g : Game σ α π κ} {pot : Nat → Nat → Int → P} :
    ∀ (fuel : Nat) (t : MonteCarloTree κ π) (s : σ) (vis : List Nat)
      (out : SelOut σ κ π), selLoop g pot fuel t s vis = some out →
      StoreInRange t.store → StoreInRange out.tree.store := by
  intro fuel
  induction fuel with
  | zero => intro t s vis out h _; rw [selLoop] at h; cases h
  | succ fuel ih =>
    intro t s vis out h ht
    have hmut : ∀ (i : Nat) (be : ExactUtility π),
        StoreInRange (t.mutate i (fun n => { n with utility := .Exact be })).store := by
      intro i be n hn
      rcases mem_modifyIdx _ _ hn with hm | ⟨m, _, he⟩
      · exact ht n hm
      · rw [he]
        intro v hv
        cases hv
    rcases selLoop_succ_inv h with ⟨_, hout⟩ | ⟨i, node, _, _, hcase⟩
    · subst hout
      exact ht
    · rcases hcase with ⟨sB, _, hout⟩ | ⟨s2, a, bP, bE, _, hrec⟩ | ⟨s2, bP, be, _, hcont⟩
      · subst hout
        exact ht
      · exact ih _ _ _ _ hrec ht
      · rcases hcont with ⟨_, hout⟩ | ⟨v, visT, _, hrec⟩
        · subst hout
          exact hmut i be
        · exact ih _ _ _ _ hrec (hmut i be)

/-- C6: assuming every `Approximate` value supplied by the game's `utility()`
lies in `[-32767, 32767]`, every `Approximate` value stored in a tree node
remains within that inclusive range after a `step` (hence after arbitrarily
many simulation quantizations and mean-blend re-quantizations). -/
theorem step_quantization_bounds [DecidableEq κ] [DecidableEq π] [LinearOrder P]
    (g : Game σ α π κ) (pot : Nat → Nat → Int → P) (pick : Nat → Nat)
    (fuelSel fuelSim : Nat) (t : MonteCarloTree κ π) (s : σ)
    (r : MonteCarloTree κ π × σ)
    (hga : ∀ (s' : σ) v, g.utility s' = .Approximate v → -32767 ≤ v ∧ v ≤ 32767)
    (hstore : StoreInRange t.store)
    (hstep : step g pot pick fuelSel fuelSim t s = some r) :
    StoreInRange r.1.store := by
  rw [step] at hstep
  rcases hsel : selLoop g pot fuelSel t s [] with _ | out
  · rw [hsel] at hstep; simp at hstep
  · simp only [hsel] at hstep
    rcases out with ⟨t1, s1⟩ | ⟨t1, sE, vis⟩
    · simp only [Option.some.injEq] at hstep
      rw [← hstep]
      exact selLoop_in_range fuelSel t s [] _ hsel hstore
    · have ht1 : StoreInRange t1.store :=
        selLoop_in_range fuelSel t s [] _ hsel hstore
      have hins : ∀ (u : Utility π) (sE1 : σ), ApproxInRange u →
          StoreInRange (t1.insertNew (g.hash sE1) ⟨u, 1⟩).store := by
        intro u sE1 hu n hn
        rcases List.mem_append.mp hn with hm | hm
        · exact ht1 n hm
        · simp only [List.mem_singleton] at hm
          rw [hm]
          exact hu
      rcases hu : g.utility sE with eu | v | _
      · simp only [hu] at hstep
        rcases hbp : backpropGo g (.Exact eu) vis sE
            (t1.insertNew (g.hash sE) ⟨.Exact eu, 1⟩).store with _ | ⟨sF, store2⟩
        · rw [hbp] at hstep; simp at hstep
        · simp only [hbp, Option.some.injEq] at hstep
          rw [← hstep]
          exact backpropGo_in_range (fun v hv => by cases hv) _ _ _ _ _ hbp
            (hins _ _ (fun v hv => by cases hv))
      · simp only [hu] at hstep
        rcases hbp : backpropGo g (.Approximate v) vis sE
            (t1.insertNew (g.hash sE) ⟨.Approximate v, 1⟩).store with _ | ⟨sF, store2⟩
        · rw [hbp] at hstep; simp at hstep
        · simp only [hbp, Option.some.injEq] at hstep
          rw [← hstep]
          have hv : ApproxInRange (Utility.Approximate v : Utility π) := by
            intro w hw
            cases hw
            exact hga sE v hu
          exact backpropGo_in_range hv _ _ _ _ _ hbp (hins _ _ hv)
      · simp only [hu] at hstep
        rcases hsim : simulate g pick fuelSim t1.simulationsPerNode sE
            t1.simulationsPerNode with _ | ⟨usim, sE1, c⟩
        · rw [hsim] at hstep; simp at hstep
        · simp only [hsim, Option.map_some'] at hstep
          have husim : ApproxInRange usim := simulate_in_range hga hsim
          rcases hbp : backpropGo g usim vis sE1
              (t1.insertNew (g.hash sE1) ⟨usim, 1⟩).store with _ | ⟨sF, store2⟩
          · rw [hbp] at hstep; simp at hstep
          · simp only [hbp, Option.some.injEq] at hstep
            rw [← hstep]
            exact backpropGo_in_range husim _ _ _ _ _ hbp (hins _ _ husim)

theorem step_quantization_bounds_witness :
    (∀ (s' : List Nat) v, gStep.utility s' = .Approximate v →
      -32767 ≤ v ∧ v ≤ 32767) ∧
    StoreInRange stepResC3.1.store :=
  ⟨fun s' v hv => by revert hv; simp [gStep, histGame]; split <;> simp,
   step_quantization_bounds gStep potZ pickZ 5 5 tStep [] stepResC3
     (fun s' v hv => by revert hv; simp [gStep, histGame]; split <;> simp)
     (by intro n hn; fin_cases hn; intro v hv; cases hv) (by decide)⟩

lemma ratTrunc_intCast_div_natCast (n : Int) (d : Nat) :
    ratTrunc ((n : ℚ) / (d : ℚ)) = n.tdiv d := by
  rcases Nat.eq_zero_or_pos d with hz | hpos
  · subst hz
    simp [ratTrunc]
  · have hd : (0 : ℚ) < (d : ℚ) := by exact_mod_cast hpos
    by_cases hn : 0 ≤ n
    · have hx : 0 ≤ (n : ℚ) / (d : ℚ) :=
        div_nonneg (by exact_mod_cast hn) hd.le
      rw [ratTrunc, if_pos hx, Rat.floor_intCast_div_natCast,
        Int.tdiv_eq_ediv hn (by exact_mod_cast hpos.le)]
    · push_neg at hn
      have hx : ¬ 0 ≤ (n : ℚ) / (d : ℚ) := by
        rw [not_le]
        exact div_neg_of_neg_of_pos (by exact_mod_cast hn) hd
      rw [ratTrunc, if_neg hx,
        show (⌈(n : ℚ) / (d : ℚ)⌉ : ℤ) = -⌊-((n : ℚ) / (d : ℚ))⌋ by
          rw [Int.floor_neg]; ring]
      rw [show -((n : ℚ) / (d : ℚ)) = ((-n : ℤ) : ℚ) / (d : ℚ) by push_cast; ring]
      rw [Rat.floor_intCast_div_natCast,
        ← Int.tdiv_eq_ediv (by omega) (by exact_mod_cast hpos.le), Int.neg_tdiv, neg_neg]

lemma blend_int_div (a v : Int) :
    blend a ((v : ℚ) / 32767) = max (-32768) (min 32767 ((a + v).tdiv 2)) := by
  rw [blend, i16cast]
  have he : (((a : ℚ) / 32767 + (v : ℚ) / 32767) / 2) * 32767 =
      ((a + v : ℤ) : ℚ) / ((2 : ℕ) : ℚ) := by
    push_cast
    ring
  rw [he, ratTrunc_intCast_div_natCast]
  norm_num

lemma updateBE_win_cur [DecidableEq π] (cur : π) (bE : Option (ExactUtility π)) :
    updateBE cur bE (.Win cur) = some (.Win cur) := by
  rcases bE with _ | best
  · rfl
  · rw [updateBE]
    simp [favorNew]

lemma updateBE_keeps_win [DecidableEq π] (cur : π) (eu : ExactUtility π) :
    updateBE cur (some (.Win cur)) eu = some (.Win cur) := by
  rcases eu with p | _
  · rw [updateBE]
    by_cases hp : p = cur
    · subst hp
      simp [favorNew]
    · simp [favorNew, hp]
  · rw [updateBE]
    simp [favorNew]

lemma scanGo_fin_keeps_win [DecidableEq κ] [DecidableEq π] [LinearOrder P]
    {g : Game σ α π κ} {pot : Nat → Nat → Int → P} {t : MonteCarloTree κ π}
    {pv : Nat} {cur : π} :
    ∀ (l : List α) (s : σ) (bA0 : Option α) (bP0 : WithBot P)
      (s' : σ) (bA' : Option α) (bP' : WithBot P) (bE' : Option (ExactUtility π)),
      scanGo g pot t pv cur l s bA0 bP0 (some (.Win cur)) = .fin s' bA' bP' bE' →
      bE' = some (.Win cur) := by
  intro l
  induction l with
  | nil =>
    intro s bA0 bP0 s' bA' bP' bE' h
    rw [scanGo] at h
    cases h
    rfl
  | cons a rest ih =>
    intro s bA0 bP0 s' bA' bP' bE' h
    rcases hf : t.findNode (g.hash (g.play s a)) with _ | c
    · rw [scanGo_cons_missing hf] at h
      cases h
    · rcases hcu : c.utility with eu | e | _
      · rw [scanGo_cons_exact hf hcu, updateBE_keeps_win] at h
        exact ih _ _ _ _ _ _ _ h
      · rw [scanGo_cons_approx hf hcu] at h
        split at h
        · exact ih _ _ _ _ _ _ _ h
        · exact ih _ _ _ _ _ _ _ h
      · rw [scanGo_cons_unknown hf hcu] at h
        cases h

/-- C1 (amended): when the completed selection scan has seen a child proven
`Exact(Win(mover))`, the scan's best proven outcome is that win — the priority
comparison always chooses a win for the mover and never replaces it — but
selection does not abort on it: the scan runs to completion and the win is
only recorded in `best_exact` (the counterexample shows that a statistical
action, when present, is still preferred and played). -/
theorem scan_win_child_recorded [DecidableEq κ] [DecidableEq π] [LinearOrder P]
    (g : Game σ α π κ) (pot : Nat → Nat → Int → P) (t : MonteCarloTree κ π)
    (pv : Nat) (cur : π) (hup : UndoPlay g) :
    ∀ (l : List α) (s : σ) (a : α) (bA0 : Option α) (bP0 : WithBot P)
      (bE0 : Option (ExactUtility π)) (s' : σ) (bA' : Option α) (bP' : WithBot P)
      (bE' : Option (ExactUtility π)),
      a ∈ l → childUtil g t s a = some (.Exact (.Win cur)) →
      scanGo g pot t pv cur l s bA0 bP0 bE0 = .fin s' bA' bP' bE' →
      bE' = some (.Win cur) := by
  intro l
  induction l with
  | nil => intro s a bA0 bP0 bE0 s' bA' bP' bE' ha _ _; cases ha
  | cons b rest ih =>
    intro s a bA0 bP0 bE0 s' bA' bP' bE' ha hchild h
    rcases List.mem_cons.mp ha with hab | har
    · subst hab
      obtain ⟨c, hf, hcu⟩ := childUtil_some_iff.mp hchild
      rw [scanGo_cons_exact hf hcu, updateBE_win_cur] at h
      exact scanGo_fin_keeps_win _ _ _ _ _ _ _ _ h
    · rcases hf : t.findNode (g.hash (g.play s b)) with _ | c
      · rw [scanGo_cons_missing hf] at h
        cases h
      · rcases hcu : c.utility with eu | e | _
        · rw [scanGo_cons_exact hf hcu] at h
          exact ih _ a _ _ _ _ _ _ _ har (by rw [hup s b]; exact hchild) h
        · rw [scanGo_cons_approx hf hcu] at h
          split at h
          · exact ih _ a _ _ _ _ _ _ _ har (by rw [hup s b]; exact hchild) h
          · exact ih _ a _ _ _ _ _ _ _ har (by rw [hup s b]; exact hchild) h
        · rw [scanGo_cons_unknown hf hcu] at h
          cases h


lemma selLoop_step_descend [DecidableEq κ] [DecidableEq π] [LinearOrder P]
    {g : Game σ α π κ} {pot : Nat → Nat → Int → P} {fuel : Nat}
    {t : MonteCarloTree κ π} {s : σ} {vis : List Nat} {i : Nat}
    {c : MonteCarloNode π} {s2 : σ} {a : α} {bP : WithBot P}
    {bE : Option (ExactUtility π)}
    (hidx : t.findIdx (g.hash s) = some i) (hget : t.store.get? i = some c)
    (hscan : scanGo g pot t c.visits (g.currentPlayer s) (g.actions s) s none ⊥ none =
      .fin s2 (some a) bP bE) :
    selLoop g pot (fuel + 1) t s vis = selLoop g pot fuel t (g.play s2 a) (i :: vis) := by
  rw [selLoop]
  simp only [hidx, hget, hscan]

lemma selLoop_step_brk [DecidableEq κ] [DecidableEq π] [LinearOrder P]
    {g : Game σ α π κ} {pot : Nat → Nat → Int → P} {fuel : Nat}
    {t : MonteCarloTree κ π} {s : σ} {vis : List Nat} {i : Nat}
    {c : MonteCarloNode π} {sB : σ}
    (hidx : t.findIdx (g.hash s) = some i) (hget : t.store.get? i = some c)
    (hscan : scanGo g pot t c.visits (g.currentPlayer s) (g.actions s) s none ⊥ none =
      .brk sB) :
    selLoop g pot (fuel + 1) t s vis = some (.expand t sB (i :: vis)) := by
  rw [selLoop]
  simp only [hidx, hget, hscan]


/-- C1 counterexample: the child reached by action 1 holds `Exact(Win(p))`
with `p` the player to move, yet `step` does **not** abort selection keeping
action 1: it prefers the statistical action 2, descends through it (that
node's visit count rises to 2 and its value is blended), and expands the
position `[3, 2]` below action 2 — so no immediate-win abort exists. -/
theorem selection_no_win_abort_counterexample :
    childUtil gC1 tC1 [] 1 = some (.Exact (.Win true)) ∧
    gC1.currentPlayer [] = true ∧
    step gC1 potentialR pickZ 5 5 tC1 [] =
      some (⟨[([], 0), ([1], 1), ([2], 2), ([3, 2], 3)],
        [⟨.Exact .Draw, 2⟩, ⟨.Exact (.Win true), 1⟩,
         ⟨.Approximate 3, 2⟩, ⟨.Approximate 7, 1⟩], 255⟩, []) := by
  refine ⟨by decide, rfl, ?_⟩
  have hscan : scanGo gC1 potentialR tC1 1 true [1, 2] [] none ⊥ none =
      .fin [] (some 2) ((potentialR 1 1 0 : ℝ) : WithBot ℝ) (some (.Win true)) := by
    rw [scanGo_cons_exact (c := ⟨.Exact (.Win true), 1⟩) (by decide) rfl]
    rw [show gC1.undo (gC1.play [] 1) = [] from rfl]
    rw [scanGo_cons_approx (c := ⟨.Approximate 0, 1⟩) (by decide) rfl]
    rw [if_pos (WithBot.bot_lt_coe _)]
    rw [show gC1.undo (gC1.play [] 2) = [] from rfl]
    rw [scanGo]
    rfl
  have hscan2 : scanGo gC1 potentialR tC1 1 true (gC1.actions [2]) [2] none ⊥ none =
      .brk [3, 2] := by
    rw [show gC1.actions [2] = [3] from rfl]
    rw [scanGo_cons_missing (by decide)]
    rfl
  have hsel : selLoop gC1 potentialR 5 tC1 [] [] =
      some (.expand tC1 [3, 2] [2, 0]) := by
    rw [show (5 : Nat) = 4 + 1 from rfl]
    rw [selLoop_step_descend (i := 0) (c := ⟨.Exact .Draw, 1⟩) (by decide) (by decide)
      (by rw [show gC1.actions [] = [1, 2] from rfl]; exact hscan)]
    rw [show gC1.play [] 2 = [2] from rfl]
    rw [show (4 : Nat) = 3 + 1 from rfl]
    rw [selLoop_step_brk (i := 2) (c := ⟨.Approximate 0, 1⟩) (by decide) (by decide) hscan2]
  rw [step, hsel]
  simp only [show gC1.utility [3, 2] = .Approximate 7 from rfl]
  have hbp : backpropGo gC1 (.Approximate 7) [2, 0] [3, 2]
      (tC1.insertNew (gC1.hash [3, 2]) ⟨.Approximate 7, 1⟩).store =
      some ([], [⟨.Exact .Draw, 2⟩, ⟨.Exact (.Win true), 1⟩,
        ⟨.Approximate 3, 2⟩, ⟨.Approximate 7, 1⟩]) := by
    rw [backpropGo]
    simp only [show ((tC1.insertNew (gC1.hash [3, 2]) ⟨.Approximate 7, 1⟩).store).get? 2 =
      some ⟨.Approximate 0, 1⟩ from rfl]
    simp only [observedScalar]
    rw [backpropGo]
    simp only [show (((tC1.insertNew (gC1.hash [3, 2]) ⟨.Approximate 7, 1⟩).store).set 2
      ⟨.Approximate (blend 0 ((7 : Int) / 32767 : ℚ)), 2⟩).get? 0 =
      some ⟨.Exact .Draw, 1⟩ from rfl]
    rw [backpropGo]
    rw [blend_int_div]
    norm_num
    decide
  rw [hbp]
  decide


theorem scan_win_child_recorded_witness :
    UndoPlay gC1 ∧ 1 ∈ gC1.actions [] ∧
    childUtil gC1 tC1 [] 1 = some (.Exact (.Win true)) ∧
    scanGo gC1 potZ tC1 1 true [1, 2] [] none ⊥ none =
      .fin [] (some 2) (((0 : Int) : WithBot Int)) (some (.Win true)) ∧
    (some (ExactUtility.Win true) : Option (ExactUtility Bool)) = some (.Win true) :=
  ⟨fun _ _ => rfl, by decide, by decide, by decide,
   scan_win_child_recorded gC1 potZ tC1 1 true (fun _ _ => rfl) [1, 2] [] 1 none ⊥ none
     [] (some 2) (((0 : Int) : WithBot Int)) (some (.Win true)) (by decide) (by decide)
     (by decide)⟩

/-- C2 counterexample: the tracked potential divides the exploitation value by
`u16::MAX` = 65535, not by 32767 as the claim states; at
`parent.visits = child.visits = 1` and `e = 32767` the claimed formula gives
`-1` while the code's potential is `-32767/65535`. -/
theorem potential_divisor_counterexample :
    potentialR 1 1 32767 ≠ Real.sqrt 2 * (Real.log 1 / 1) - (32767 : ℝ) / 32767 := by
  rw [potentialR]
  push_cast
  rw [Real.log_one]
  intro h
  norm_num at h

lemma scanGo_max [DecidableEq κ] [DecidableEq π] [LinearOrder P]
    {g : Game σ α π κ} {pot : Nat → Nat → Int → P} {t : MonteCarloTree κ π}
    {pv : Nat} {cur : π} (hup : UndoPlay g) :
    ∀ (l : List α) (s : σ) (bA0 : Option α) (bP0 : WithBot P)
      (bE0 : Option (ExactUtility π)) (s' : σ) (bA' : Option α) (bP' : WithBot P)
      (bE' : Option (ExactUtility π)),
      scanGo g pot t pv cur l s bA0 bP0 bE0 = .fin s' bA' bP' bE' →
      bP0 ≤ bP' ∧
      (∀ a ∈ l, ∀ c e, t.findNode (g.hash (g.play s a)) = some c →
        c.utility = .Approximate e → ((pot pv c.visits e : P) : WithBot P) ≤ bP') ∧
      ((bA' = bA0 ∧ bP' = bP0) ∨
       ∃ a ∈ l, ∃ c e, t.findNode (g.hash (g.play s a)) = some c ∧
         c.utility = .Approximate e ∧ bA' = some a ∧
         bP' = ((pot pv c.visits e : P) : WithBot P)) := by
  intro l
  induction l with
  | nil =>
    intro s bA0 bP0 bE0 s' bA' bP' bE' h
    rw [scanGo] at h
    cases h
    exact ⟨le_refl _, fun a ha => absurd ha (by simp), Or.inl ⟨rfl, rfl⟩⟩
  | cons a rest ih =>
    intro s bA0 bP0 bE0 s' bA' bP' bE' h
    rcases hf : t.findNode (g.hash (g.play s a)) with _ | c0
    · rw [scanGo_cons_missing hf] at h
      cases h
    · rcases hcu : c0.utility with eu | e0 | _
      · rw [scanGo_cons_exact hf hcu] at h
        rw [hup s a] at h
        obtain ⟨h1, h2, h3⟩ := ih _ _ _ _ _ _ _ _ h
        refine ⟨h1, ?_, ?_⟩
        · intro b hb c e hfc hce
          rcases List.mem_cons.mp hb with hba | hbr
          · subst hba
            rw [hf] at hfc
            cases hfc
            rw [hcu] at hce
            cases hce
          · exact h2 b hbr c e hfc hce
        · rcases h3 with hl | ⟨b, hb, c, e, hfc, hce, hba, hbp⟩
          · exact Or.inl hl
          · exact Or.inr ⟨b, List.mem_cons_of_mem a hb, c, e, hfc, hce, hba, hbp⟩
      · rw [scanGo_cons_approx hf hcu] at h
        split at h
        · rename_i hlt
          rw [hup s a] at h
          obtain ⟨h1, h2, h3⟩ := ih _ _ _ _ _ _ _ _ h
          refine ⟨le_trans (le_of_lt hlt) h1, ?_, ?_⟩
          · intro b hb c e hfc hce
            rcases List.mem_cons.mp hb with hba | hbr
            · subst hba
              rw [hf] at hfc
              cases hfc
              rw [hcu] at hce
              cases hce
              exact h1
            · exact h2 b hbr c e hfc hce
          · rcases h3 with ⟨hba, hbp⟩ | ⟨b, hb, c, e, hfc, hce, hba, hbp⟩
            · exact Or.inr ⟨a, List.mem_cons_self a rest, c0, e0, hf, hcu, hba, hbp⟩
            · exact Or.inr ⟨b, List.mem_cons_of_mem a hb, c, e, hfc, hce, hba, hbp⟩
        · rename_i hnlt
          rw [hup s a] at h
          obtain ⟨h1, h2, h3⟩ := ih _ _ _ _ _ _ _ _ h
          refine ⟨h1, ?_, ?_⟩
          · intro b hb c e hfc hce
            rcases List.mem_cons.mp hb with hba | hbr
            · subst hba
              rw [hf] at hfc
              cases hfc
              rw [hcu] at hce
              cases hce
              exact le_trans (le_of_not_lt hnlt) h1
            · exact h2 b hbr c e hfc hce
          · rcases h3 with hl | ⟨b, hb, c, e, hfc, hce, hba, hbp⟩
            · exact Or.inl hl
            · exact Or.inr ⟨b, List.mem_cons_of_mem a hb, c, e, hfc, hce, hba, hbp⟩
      · rw [scanGo_cons_unknown hf hcu] at h
        cases h

/-- C2 (amended): for an `Approximate(e)` child the tracked potential is
`sqrt(2) * (ln(parent.visits) / child.visits) - e / 65535` — the divisor is
`u16::MAX` = 65535, not 32767 — and the best statistical action returned by a
completed scan is an action whose potential is maximal among all
`Approximate` children (it is `none` exactly when the scan tracked no
potential at all). -/
theorem scan_best_statistical_maximizes [DecidableEq κ] [DecidableEq π]
    (g : Game σ α π κ) (t : MonteCarloTree κ π) (pv : Nat) (cur : π)
    (hup : UndoPlay g) (l : List α) (s s' : σ) (bA' : Option α)
    (bP' : WithBot ℝ) (bE' : Option (ExactUtility π))
    (hscan : scanGo g potentialR t pv cur l s none ⊥ none = .fin s' bA' bP' bE') :
    (∀ a ∈ l, ∀ c e, t.findNode (g.hash (g.play s a)) = some c →
      c.utility = .Approximate e →
      ((potentialR pv c.visits e : ℝ) : WithBot ℝ) ≤ bP') ∧
    ((bA' = none ∧ bP' = ⊥) ∨
     ∃ a ∈ l, ∃ c e, t.findNode (g.hash (g.play s a)) = some c ∧
       c.utility = .Approximate e ∧ bA' = some a ∧
       bP' = ((potentialR pv c.visits e : ℝ) : WithBot ℝ)) := by
  obtain ⟨-, h2, h3⟩ := scanGo_max hup l s none ⊥ none s' bA' bP' bE' hscan
  exact ⟨h2, h3⟩


theorem scan_best_statistical_maximizes_witness :
    UndoPlay gC1 ∧
    scanGo gC1 potentialR tC1 1 true [1, 2] [] none ⊥ none =
      .fin [] (some 2) ((potentialR 1 1 0 : ℝ) : WithBot ℝ) (some (.Win true)) ∧
    (∀ a ∈ [1, 2], ∀ (c : MonteCarloNode Bool) (e : Int),
      tC1.findNode (gC1.hash (gC1.play [] a)) = some c →
      c.utility = .Approximate e →
      ((potentialR 1 c.visits e : ℝ) : WithBot ℝ) ≤
        ((potentialR 1 1 0 : ℝ) : WithBot ℝ)) := by
  have hup : UndoPlay gC1 := fun _ _ => rfl
  have hscan : scanGo gC1 potentialR tC1 1 true [1, 2] [] none ⊥ none =
      .fin [] (some 2) ((potentialR 1 1 0 : ℝ) : WithBot ℝ) (some (.Win true)) := by
    rw [scanGo_cons_exact (c := ⟨.Exact (.Win true), 1⟩) (by decide) rfl]
    rw [show gC1.undo (gC1.play [] 1) = [] from rfl]
    rw [scanGo_cons_approx (c := ⟨.Approximate 0, 1⟩) (by decide) rfl]
    rw [if_pos (WithBot.bot_lt_coe _)]
    rw [show gC1.undo (gC1.play [] 2) = [] from rfl]
    rw [scanGo]
    rfl
  exact ⟨hup, hscan,
    (scan_best_statistical_maximizes gC1 tC1 1 true hup [1, 2] [] [] (some 2) _ _
      hscan).1⟩



lemma lookupKey_bindKey_ne [DecidableEq κ] {k kq : κ} {i : Nat} (hne : kq ≠ k) :
    ∀ (entries : List (κ × Nat)), lookupKey kq (bindKey k i entries) = lookupKey kq entries := by
  intro entries
  induction entries with
  | nil => simp [bindKey, lookupKey, Ne.symm hne]
  | cons p rest ih =>
    rw [bindKey]
    by_cases hk : p.1 = k
    · rw [if_pos hk, lookupKey, if_neg (Ne.symm hne)]
      rw [lookupKey, if_neg (show ¬ p.1 = kq from fun h => hne (by rw [← h, hk]))]
    · rw [if_neg hk, lookupKey, lookupKey, ih]

lemma mem_bindKey [DecidableEq κ] {k : κ} {i : Nat} {q : κ × Nat} :
    ∀ {entries : List (κ × Nat)}, q ∈ bindKey k i entries →
      q ∈ entries ∨ q = (k, i) := by
  intro entries
  induction entries with
  | nil =>
    intro h
    rw [bindKey] at h
    simp only [List.mem_singleton] at h
    exact Or.inr h
  | cons p rest ih =>
    intro h
    rw [bindKey] at h
    by_cases hk : p.1 = k
    · rw [if_pos hk] at h
      rcases List.mem_cons.mp h with he | hr
      · exact Or.inr he
      · exact Or.inl (List.mem_cons_of_mem p hr)
    · rw [if_neg hk] at h
      rcases List.mem_cons.mp h with he | hr
      · exact Or.inl (he ▸ List.mem_cons_self p rest)
      · rcases ih hr with hm | he
        · exact Or.inl (List.mem_cons_of_mem p hm)
        · exact Or.inr he

lemma bindKey_snd_nodup [DecidableEq κ] {k : κ} {i : Nat} :
    ∀ {entries : List (κ × Nat)}, (entries.map Prod.snd).Nodup →
      (∀ p ∈ entries, p.2 ≠ i) →
      ((bindKey k i entries).map Prod.snd).Nodup := by
  intro entries
  induction entries with
  | nil =>
    intro _ _
    simp [bindKey]
  | cons p rest ih =>
    intro hnd hne
    rw [List.map_cons, List.nodup_cons] at hnd
    rw [bindKey]
    by_cases hk : p.1 = k
    · rw [if_pos hk, List.map_cons, List.nodup_cons]
      refine ⟨?_, hnd.2⟩
      intro hmem
      obtain ⟨q, hq, hq2⟩ := List.mem_map.mp hmem
      exact hne q (List.mem_cons_of_mem p hq) hq2
    · rw [if_neg hk, List.map_cons, List.nodup_cons]
      constructor
      · intro hmem
        obtain ⟨q, hq, hq2⟩ := List.mem_map.mp hmem
        rcases mem_bindKey hq with hm | he
        · exact hnd.1 (List.mem_map.mpr ⟨q, hm, hq2⟩)
        · exact hne p (List.mem_cons_self p rest) (by rw [← hq2, he])
      · exact ih hnd.2 (fun q hq => hne q (List.mem_cons_of_mem p hq))

lemma snd_ne_of_nodup [DecidableEq κ] {entries : List (κ × Nat)}
    (hnd : (entries.map Prod.snd).Nodup) {k1 k2 : κ} {i1 i2 : Nat}
    (h1 : (k1, i1) ∈ entries) (h2 : (k2, i2) ∈ entries) (hk : k1 ≠ k2) : i1 ≠ i2 := by
  intro he
  subst he
  have := List.inj_on_of_nodup_map hnd h1 h2 rfl
  exact hk (congrArg Prod.fst this)

lemma utilAt_of_idx [DecidableEq κ] {t : MonteCarloTree κ π} {k : κ} {j : Nat}
    (h : lookupKey k t.nodes = some j) :
    utilAt t k = (t.store.get? j).map (·.utility) := by
  rw [utilAt, MonteCarloTree.findNode, MonteCarloTree.findIdx, h]
  rfl

lemma utilAt_of_no_idx [DecidableEq κ] {t : MonteCarloTree κ π} {k : κ}
    (h : lookupKey k t.nodes = none) : utilAt t k = none := by
  rw [utilAt, MonteCarloTree.findNode, MonteCarloTree.findIdx, h]
  rfl


lemma scanGo_fin_some [DecidableEq κ] [DecidableEq π] [LinearOrder P]
    {g : Game σ α π κ} {pot : Nat → Nat → Int → P} {t : MonteCarloTree κ π}
    {pv : Nat} {cur : π} :
    ∀ (l : List α) (s : σ) (a0 : α) (bP0 : WithBot P) (bE0 : Option (ExactUtility π))
      (s' : σ) (bA' : Option α) (bP' : WithBot P) (bE' : Option (ExactUtility π)),
      scanGo g pot t pv cur l s (some a0) bP0 bE0 = .fin s' bA' bP' bE' →
      ∃ x, bA' = some x := by
  intro l
  induction l with
  | nil =>
    intro s a0 bP0 bE0 s' bA' bP' bE' h
    rw [scanGo] at h
    cases h
    exact ⟨a0, rfl⟩
  | cons a rest ih =>
    intro s a0 bP0 bE0 s' bA' bP' bE' h
    rcases hf : t.findNode (g.hash (g.play s a)) with _ | c
    · rw [scanGo_cons_missing hf] at h
      cases h
    · rcases hcu : c.utility with eu | e | _
      · rw [scanGo_cons_exact hf hcu] at h
        exact ih _ _ _ _ _ _ _ _ h
      · rw [scanGo_cons_approx hf hcu] at h
        split at h
        · exact ih _ _ _ _ _ _ _ _ h
        · exact ih _ _ _ _ _ _ _ _ h
      · rw [scanGo_cons_unknown hf hcu] at h
        cases h

lemma scanGo_fin_none_fold [DecidableEq κ] [DecidableEq π] [LinearOrder P]
    {g : Game σ α π κ} {pot : Nat → Nat → Int → P} {t : MonteCarloTree κ π}
    {pv : Nat} {cur : π} (hup : UndoPlay g) :
    ∀ (l : List α) (s : σ) (bE0 : Option (ExactUtility π))
      (s' : σ) (bP' : WithBot P) (bE' : Option (ExactUtility π)),
      scanGo g pot t pv cur l s none ⊥ bE0 = .fin s' none bP' bE' →
      (∀ a ∈ l, ∃ e, childUtil g t s a = some (.Exact e)) ∧
      bE' = l.foldl
        (fun bE a =>
          match childUtil g t s a with
          | some (.Exact eu) => updateBE cur bE eu
          | _ => bE)
        bE0 := by
  intro l
  induction l with
  | nil =>
    intro s bE0 s' bP' bE' h
    rw [scanGo] at h
    cases h
    exact ⟨fun a ha => absurd ha (by simp), rfl⟩
  | cons a rest ih =>
    intro s bE0 s' bP' bE' h
    rcases hf : t.findNode (g.hash (g.play s a)) with _ | c
    · rw [scanGo_cons_missing hf] at h
      cases h
    · rcases hcu : c.utility with eu | e | _
      · rw [scanGo_cons_exact hf hcu, hup s a] at h
        obtain ⟨h1, h2⟩ := ih _ _ _ _ _ h
        have hcu' : childUtil g t s a = some (.Exact eu) := by
          simp [childUtil, utilAt, hf, hcu]
        refine ⟨?_, ?_⟩
        · intro b hb
          rcases List.mem_cons.mp hb with hba | hbr
          · exact ⟨eu, hba ▸ hcu'⟩
          · exact h1 b hbr
        · rw [h2, List.foldl_cons, hcu']
      · rw [scanGo_cons_approx hf hcu] at h
        split at h
        · obtain ⟨x, hx⟩ := scanGo_fin_some _ _ _ _ _ _ _ _ _ h
          cases hx
        · rename_i hnlt
          exact absurd (WithBot.bot_lt_coe _) hnlt
      · rw [scanGo_cons_unknown hf hcu] at h
        cases h

lemma scanGo_brk_node [DecidableEq κ] [DecidableEq π] [LinearOrder P]
    {g : Game σ α π κ} {pot : Nat → Nat → Int → P} {t : MonteCarloTree κ π}
    {pv : Nat} {cur : π} :
    ∀ (l : List α) (s : σ) (bA0 : Option α) (bP0 : WithBot P)
      (bE0 : Option (ExactUtility π)) (sB : σ),
      scanGo g pot t pv cur l s bA0 bP0 bE0 = .brk sB →
      utilAt t (g.hash sB) = none ∨ utilAt t (g.hash sB) = some .Unknown := by
  intro l
  induction l with
  | nil =>
    intro s bA0 bP0 bE0 sB h
    rw [scanGo] at h
    cases h
  | cons a rest ih =>
    intro s bA0 bP0 bE0 sB h
    rcases hf : t.findNode (g.hash (g.play s a)) with _ | c
    · rw [scanGo_cons_missing hf] at h
      cases h
      exact Or.inl (by simp [utilAt, hf])
    · rcases hcu : c.utility with eu | e | _
      · rw [scanGo_cons_exact hf hcu] at h
        exact ih _ _ _ _ _ h
      · rw [scanGo_cons_approx hf hcu] at h
        split at h
        · exact ih _ _ _ _ _ h
        · exact ih _ _ _ _ _ h
      · rw [scanGo_cons_unknown hf hcu] at h
        cases h
        exact Or.inr (by simp [utilAt, hf, hcu])

lemma selLoop_expand_key [DecidableEq κ] [DecidableEq π] [LinearOrder P]
    {g : Game σ α π κ} {pot : Nat → Nat → Int → P} :
    ∀ (fuel : Nat) (t : MonteCarloTree κ π) (s : σ) (vis : List Nat)
      (t1 : MonteCarloTree κ π) (sE : σ) (visR : List Nat),
      selLoop g pot fuel t s vis = some (.expand t1 sE visR) →
      utilAt t1 (g.hash sE) = none ∨ utilAt t1 (g.hash sE) = some .Unknown := by
  intro fuel
  induction fuel with
  | zero => intro t s vis t1 sE visR h; rw [selLoop] at h; cases h
  | succ fuel ih =>
    intro t s vis t1 sE visR h
    rcases selLoop_succ_inv h with ⟨hidx, hout⟩ | ⟨i, node, hidx, hget, hcase⟩
    · cases hout
      exact Or.inl (utilAt_of_no_idx hidx)
    · rcases hcase with ⟨sB, hscan, hout⟩ | ⟨s2, a, bP, bE, hscan, hrec⟩ |
        ⟨s2, bP, be, hscan, hcont⟩
      · cases hout
        exact scanGo_brk_node _ _ _ _ _ _ hscan
      · exact ih _ _ _ _ _ _ hrec
      · rcases hcont with ⟨hvis, hout⟩ | ⟨v, visT, hvis, hrec⟩
        · cases hout
        · exact ih _ _ _ _ _ _ hrec


lemma exactFold_congr_of_eq [DecidableEq κ] [DecidableEq π] {g : Game σ α π κ}
    {t t' : MonteCarloTree κ π} {s : σ}
    (h : ∀ a ∈ g.actions s, childUtil g t' s a = childUtil g t s a) :
    exactFold g t' s = exactFold g t s := by
  rw [exactFold, exactFold]
  have : ∀ (l : List α) (bE : Option (ExactUtility π)),
      (∀ a ∈ l, childUtil g t' s a = childUtil g t s a) →
      l.foldl (fun bE a =>
        match childUtil g t' s a with
        | some (.Exact eu) => updateBE (g.currentPlayer s) bE eu
        | _ => bE) bE =
      l.foldl (fun bE a =>
        match childUtil g t s a with
        | some (.Exact eu) => updateBE (g.currentPlayer s) bE eu
        | _ => bE) bE := by
    intro l
    induction l with
    | nil => intro bE _; rfl
    | cons a rest ih =>
      intro bE hl
      rw [List.foldl_cons, List.foldl_cons, hl a (List.mem_cons_self a rest)]
      exact ih _ (fun b hb => hl b (List.mem_cons_of_mem a hb))
  exact this _ none h

lemma exactFold_congr_of_iff [DecidableEq κ] [DecidableEq π] {g : Game σ α π κ}
    {t t' : MonteCarloTree κ π} {s : σ}
    (h : ∀ a ∈ g.actions s, ∀ e,
      childUtil g t s a = some (.Exact e) ↔ childUtil g t' s a = some (.Exact e)) :
    exactFold g t s = exactFold g t' s := by
  rw [exactFold, exactFold]
  have : ∀ (l : List α) (bE : Option (ExactUtility π)),
      (∀ a ∈ l, ∀ e, childUtil g t s a = some (.Exact e) ↔
        childUtil g t' s a = some (.Exact e)) →
      l.foldl (fun bE a =>
        match childUtil g t s a with
        | some (.Exact eu) => updateBE (g.currentPlayer s) bE eu
        | _ => bE) bE =
      l.foldl (fun bE a =>
        match childUtil g t' s a with
        | some (.Exact eu) => updateBE (g.currentPlayer s) bE eu
        | _ => bE) bE := by
    intro l
    induction l with
    | nil => intro bE _; rfl
    | cons a rest ih =>
      intro bE hl
      rw [List.foldl_cons, List.foldl_cons]
      have hstep : (match childUtil g t s a with
          | some (.Exact eu) => updateBE (g.currentPlayer s) bE eu
          | _ => bE) =
          (match childUtil g t' s a with
          | some (.Exact eu) => updateBE (g.currentPlayer s) bE eu
          | _ => bE) := by
        have hiff := hl a (List.mem_cons_self a rest)
        rcases hc : childUtil g t s a with _ | u
        · rcases hc' : childUtil g t' s a with _ | u'
          · rfl
          · rcases u' with e' | v' | _
            · exact absurd ((hiff e').mpr hc') (by rw [hc]; simp)
            · rfl
            · rfl
        · rcases u with e | v | _
          · rw [(hiff e).mp hc]
          · rcases hc' : childUtil g t' s a with _ | u'
            · rfl
            · rcases u' with e' | v' | _
              · exact absurd ((hiff e').mpr hc') (by rw [hc]; simp)
              · rfl
              · rfl
          · rcases hc' : childUtil g t' s a with _ | u'
            · rfl
            · rcases u' with e' | v' | _
              · exact absurd ((hiff e').mpr hc') (by rw [hc]; simp)
              · rfl
              · rfl
      rw [hstep]
      exact ih _ (fun b hb => hl b (List.mem_cons_of_mem a hb))
  exact this _ none h


lemma solve_write_preserves [DecidableEq κ] [DecidableEq π] [LinearOrder P]
    {g : Game σ α π κ} {pot : Nat → Nat → Int → P} {t : MonteCarloTree κ π}
    {s : σ} {i : Nat} {node : MonteCarloNode π} {s2 : σ} {bP : WithBot P}
    {be : ExactUtility π}
    (hup : UndoPlay g) (hinj : Function.Injective g.hash)
    (hterm : ∀ (s' : σ) e, g.utility s' = .Exact e → g.actions s' = [])
    (hnd : (t.nodes.map Prod.snd).Nodup)
    (hcons : Consistent g t)
    (hidx : lookupKey (g.hash s) t.nodes = some i)
    (hget : t.store.get? i = some node)
    (hscan : scanGo g pot t node.visits (g.currentPlayer s) (g.actions s) s none ⊥ none =
      .fin s2 none bP (some be)) :
    (∀ k u, utilAt t k = some (.Exact u) →
      utilAt (t.mutate i fun n => { n with utility := .Exact be }) k = some (.Exact u)) ∧
    Consistent g (t.mutate i fun n => { n with utility := .Exact be }) := by
  obtain ⟨hall, hfold⟩ := scanGo_fin_none_fold hup _ _ _ _ _ _ hscan
  have hbe : exactFold g t s = some be := hfold.symm
  have hnodes : (t.mutate i fun n => { n with utility := .Exact be }).nodes = t.nodes := rfl
  have hutil_s : utilAt t (g.hash s) = some node.utility := by
    rw [utilAt_of_idx hidx, hget]
    rfl
  have hkey_ne : ∀ (k : κ) (j : Nat), lookupKey k t.nodes = some j → j ≠ i →
      utilAt (t.mutate i fun n => { n with utility := .Exact be }) k = utilAt t k := by
    intro k j hj hji
    rw [utilAt_of_idx (t := t.mutate i fun n => { n with utility := .Exact be }) hj,
      utilAt_of_idx hj]
    show ((modifyIdx _ t.store i).get? j).map _ = _
    rw [modifyIdx_get?, if_neg hji]
  have hkey_i : ∀ (k : κ), lookupKey k t.nodes = some i →
      utilAt (t.mutate i fun n => { n with utility := .Exact be }) k =
        some (.Exact be) := by
    intro k hj
    rw [utilAt_of_idx (t := t.mutate i fun n => { n with utility := .Exact be }) hj]
    show ((modifyIdx _ t.store i).get? i).map _ = _
    rw [modifyIdx_get?, if_pos rfl, hget]
    rfl
  have hsame_key : ∀ (k : κ), lookupKey k t.nodes = some i → k = g.hash s := by
    intro k hk
    by_contra hne
    exact snd_ne_of_nodup hnd (lookupKey_mem hk) (lookupKey_mem hidx) hne rfl
  have hval : ∀ u, node.utility = .Exact u → be = u := by
    intro u hu
    rcases hcons s u (by rw [hutil_s, hu]) with hgame | ⟨-, hf⟩
    · have hacts := hterm s u hgame
      rw [hacts, scanGo] at hscan
      cases hscan
    · rw [hbe] at hf
      exact (Option.some.injEq _ _ ▸ hf)
  have hchild_eq : ∀ (s1 : σ),
      (∀ a ∈ g.actions s1, ∃ e, childUtil g t s1 a = some (.Exact e)) →
      ∀ a ∈ g.actions s1,
        childUtil g (t.mutate i fun n => { n with utility := .Exact be }) s1 a =
          childUtil g t s1 a := by
    intro s1 hae a ha
    rcases hk : lookupKey (g.hash (g.play s1 a)) t.nodes with _ | j
    · rw [childUtil, childUtil, utilAt_of_no_idx hk,
        utilAt_of_no_idx (t := t.mutate i fun n => { n with utility := .Exact be }) hk]
    · by_cases hji : j = i
      · subst hji
        have hks : g.hash (g.play s1 a) = g.hash s := hsame_key _ hk
        obtain ⟨e, he⟩ := hae a ha
        have hnode_e : node.utility = .Exact e := by
          rw [childUtil, hks, hutil_s] at he
          exact Option.some.injEq _ _ ▸ he
        rw [childUtil, hkey_i _ hk, hval e hnode_e, childUtil, hks, hutil_s, hnode_e]
      · rw [childUtil, childUtil, hkey_ne _ _ hk hji]
  constructor
  · intro k u hk
    rcases hj : lookupKey k t.nodes with _ | j
    · rw [utilAt_of_no_idx hj] at hk
      cases hk
    · by_cases hji : j = i
      · subst hji
        have hks : k = g.hash s := hsame_key _ hj
        have hnode_u : node.utility = .Exact u := by
          rw [hks, hutil_s] at hk
          exact Option.some.injEq _ _ ▸ hk
        rw [hkey_i _ hj, hval u hnode_u]
      · rw [hkey_ne _ _ hj hji]
        exact hk
  · intro s1 u1 h1
    rcases hj : lookupKey (g.hash s1) t.nodes with _ | j
    · rw [utilAt_of_no_idx (t := t.mutate i fun n => { n with utility := .Exact be }) hj]
        at h1
      cases h1
    · by_cases hji : j = i
      · subst hji
        have hks : g.hash s1 = g.hash s := hsame_key _ hj
        have hs1 : s1 = s := hinj hks
        subst hs1
        have hu1 : u1 = be := by
          rw [hkey_i _ hj] at h1
          injection h1 with h1a
          injection h1a with h1b
          exact h1b.symm
        refine Or.inr ⟨?_, ?_⟩
        · intro a ha
          obtain ⟨e, he⟩ := hall a ha
          exact ⟨e, by rw [hchild_eq s1 hall a ha]; exact he⟩
        · rw [exactFold_congr_of_eq (hchild_eq s1 hall), hbe, hu1]
      · rw [hkey_ne _ _ hj hji] at h1
        rcases hcons s1 u1 h1 with hgame | ⟨hae, hfo⟩
        · exact Or.inl hgame
        · refine Or.inr ⟨?_, ?_⟩
          · intro a ha
            obtain ⟨e, he⟩ := hae a ha
            exact ⟨e, by rw [hchild_eq s1 hae a ha]; exact he⟩
          · rw [exactFold_congr_of_eq (hchild_eq s1 hae), hfo]


lemma backpropGo_exact_iff [DecidableEq π] {g : Game σ α π κ} {u : Utility π} :
    ∀ (vis : List Nat) (s : σ) (store : List (MonteCarloNode π)) (sF : σ)
      (store2 : List (MonteCarloNode π)),
      backpropGo g u vis s store = some (sF, store2) →
      ∀ (j : Nat) (e : ExactUtility π),
        (store.get? j).map (·.utility) = some (.Exact e) ↔
        (store2.get? j).map (·.utility) = some (.Exact e) := by
  intro vis
  induction vis with
  | nil =>
    intro s store sF store2 h j e
    rw [backpropGo] at h
    simp only [Option.some.injEq, Prod.mk.injEq] at h
    rw [h.2]
  | cons i rest ih =>
    intro s store sF store2 h j e
    rw [backpropGo] at h
    rcases hget : store.get? i with _ | n
    · simp only [hget] at h
      exact ih _ _ _ _ h j e
    · simp only [hget] at h
      rcases hnu : n.utility with eu | ap | _
      · simp only [hnu] at h
        refine Iff.trans ?_ (ih _ _ _ _ h j e)
        by_cases hji : j = i
        · subst hji
          rw [List.get?_set_eq, hget]
          simp [hnu]
        · rw [List.get?_set_ne _ _ (fun he => hji he.symm)]
      · simp only [hnu] at h
        rcases hos : observedScalar g u (g.undo s) with _ | obs
        · rw [hos] at h; simp at h
        · simp only [hos] at h
          refine Iff.trans ?_ (ih _ _ _ _ h j e)
          by_cases hji : j = i
          · subst hji
            rw [List.get?_set_eq, hget]
            simp [hnu]
          · rw [List.get?_set_ne _ _ (fun he => hji he.symm)]
      · simp only [hnu] at h
        refine Iff.trans ?_ (ih _ _ _ _ h j e)
        by_cases hji : j = i
        · subst hji
          rw [List.get?_set_eq, hget]
          simp [hnu]
        · rw [List.get?_set_ne _ _ (fun he => hji he.symm)]

lemma utilAt_insertNew_self [DecidableEq κ] {t : MonteCarloTree κ π} {k : κ}
    {n : MonteCarloNode π} :
    utilAt (t.insertNew k n) k = some n.utility := by
  rw [utilAt_of_idx (t := t.insertNew k n) (lookupKey_bindKey_self _)]
  show ((t.store ++ [n]).get? t.store.length).map _ = _
  rw [List.get?_concat_length]
  rfl

lemma utilAt_insertNew_ne [DecidableEq κ] {t : MonteCarloTree κ π} {k kq : κ}
    {n : MonteCarloNode π} (hwf : TreeWf t) (hne : kq ≠ k) :
    utilAt (t.insertNew k n) kq = utilAt t kq := by
  rcases hj : lookupKey kq t.nodes with _ | j
  · rw [utilAt_of_no_idx hj,
      utilAt_of_no_idx (t := t.insertNew k n)
        (by show lookupKey kq (bindKey k t.store.length t.nodes) = none
            rw [lookupKey_bindKey_ne hne, hj])]
  · have hjlt : j < t.store.length := hwf _ (lookupKey_mem hj)
    rw [utilAt_of_idx hj,
      utilAt_of_idx (t := t.insertNew k n)
        (by show lookupKey kq (bindKey k t.store.length t.nodes) = some j
            rw [lookupKey_bindKey_ne hne, hj])]
    show ((t.store ++ [n]).get? j).map _ = _
    rw [List.get?_append hjlt]

lemma insert_consistent [DecidableEq κ] [DecidableEq π] {g : Game σ α π κ}
    {t1 : MonteCarloTree κ π} {sE : σ} {u : Utility π}
    (hinj : Function.Injective g.hash) (hwf : TreeWf t1)
    (hcons : Consistent g t1)
    (hkey : utilAt t1 (g.hash sE) = none ∨ utilAt t1 (g.hash sE) = some .Unknown)
    (hexact : ∀ e, u = .Exact e → g.utility sE = .Exact e) :
    (∀ k w, utilAt t1 k = some (.Exact w) →
      utilAt (t1.insertNew (g.hash sE) ⟨u, 1⟩) k = some (.Exact w)) ∧
    Consistent g (t1.insertNew (g.hash sE) ⟨u, 1⟩) := by
  have hpres : ∀ k w, utilAt t1 k = some (.Exact w) →
      utilAt (t1.insertNew (g.hash sE) ⟨u, 1⟩) k = some (.Exact w) := by
    intro k w hk
    by_cases hke : k = g.hash sE
    · subst hke
      rcases hkey with h0 | h0 <;> rw [h0] at hk <;> cases hk
    · rw [utilAt_insertNew_ne hwf hke]
      exact hk
  refine ⟨hpres, ?_⟩
  intro s1 u1 h1
  by_cases hke : g.hash s1 = g.hash sE
  · have hs1 : s1 = sE := hinj hke
    subst hs1
    rw [hke, utilAt_insertNew_self] at h1
    injection h1 with h1a
    exact Or.inl (hexact u1 h1a)
  · rw [utilAt_insertNew_ne hwf hke] at h1
    rcases hcons s1 u1 h1 with hgame | ⟨hae, hfo⟩
    · exact Or.inl hgame
    · have hceq : ∀ a ∈ g.actions s1,
          childUtil g (t1.insertNew (g.hash sE) ⟨u, 1⟩) s1 a = childUtil g t1 s1 a := by
        intro a ha
        obtain ⟨e, he⟩ := hae a ha
        have hkne : g.hash (g.play s1 a) ≠ g.hash sE := by
          intro hcc
          rw [childUtil, hcc] at he
          rcases hkey with h0 | h0 <;> rw [h0] at he <;> cases he
        rw [childUtil, childUtil, utilAt_insertNew_ne hwf hkne]
      refine Or.inr ⟨?_, ?_⟩
      · intro a ha
        obtain ⟨e, he⟩ := hae a ha
        exact ⟨e, by rw [hceq a ha]; exact he⟩
      · rw [exactFold_congr_of_eq hceq, hfo]

lemma consistent_transport [DecidableEq κ] [DecidableEq π] {g : Game σ α π κ}
    {t2 tF : MonteCarloTree κ π}
    (hiff : ∀ (k : κ) (e : ExactUtility π),
      utilAt t2 k = some (.Exact e) ↔ utilAt tF k = some (.Exact e))
    (hc : Consistent g t2) : Consistent g tF := by
  intro s1 u1 h1
  have h1' := (hiff _ _).mpr h1
  rcases hc s1 u1 h1' with hgame | ⟨hae, hfo⟩
  · exact Or.inl hgame
  · refine Or.inr ⟨?_, ?_⟩
    · intro a ha
      obtain ⟨e, he⟩ := hae a ha
      exact ⟨e, (hiff _ _).mp he⟩
    · rw [← exactFold_congr_of_iff (fun a _ e => hiff (g.hash (g.play s1 a)) e), hfo]

lemma utilAt_store_exact_iff [DecidableEq κ] [DecidableEq π]
    {u : MonteCarloTree κ π} {w : List (MonteCarloNode π)} {p : Nat}
    (hiff : ∀ (j : Nat) (e : ExactUtility π),
      (u.store.get? j).map (·.utility) = some (.Exact e) ↔
      (w.get? j).map (·.utility) = some (.Exact e)) :
    ∀ (k : κ) (e : ExactUtility π),
      utilAt u k = some (.Exact e) ↔
      utilAt (⟨u.nodes, w, p⟩ : MonteCarloTree κ π) k = some (.Exact e) := by
  intro k e
  rcases hj : lookupKey k u.nodes with _ | j
  · rw [utilAt_of_no_idx hj,
      utilAt_of_no_idx (t := (⟨u.nodes, w, p⟩ : MonteCarloTree κ π)) hj]
  · rw [utilAt_of_idx hj,
      utilAt_of_idx (t := (⟨u.nodes, w, p⟩ : MonteCarloTree κ π)) hj]
    exact hiff j e


lemma selLoop_consistent [DecidableEq κ] [DecidableEq π] [LinearOrder P]
    {g : Game σ α π κ} {pot : Nat → Nat → Int → P}
    (hup : UndoPlay g) (hinj : Function.Injective g.hash)
    (hterm : ∀ (s' : σ) e, g.utility s' = .Exact e → g.actions s' = []) :
    ∀ (fuel : Nat) (t : MonteCarloTree κ π) (s : σ) (vis : List Nat)
      (out : SelOut σ κ π), selLoop g pot fuel t s vis = some out →
      (t.nodes.map Prod.snd).Nodup → Consistent g t →
      (∀ k u, utilAt t k = some (.Exact u) → utilAt out.tree k = some (.Exact u)) ∧
      Consistent g out.tree := by
  intro fuel
  induction fuel with
  | zero => intro t s vis out h _ _; rw [selLoop] at h; cases h
  | succ fuel ih =>
    intro t s vis out h hnd hcons
    rcases selLoop_succ_inv h with ⟨hidx, hout⟩ | ⟨i, node, hidx, hget, hcase⟩
    · subst hout
      exact ⟨fun k u hk => hk, hcons⟩
    · rcases hcase with ⟨sB, hscan, hout⟩ | ⟨s2, a, bP, bE, hscan, hrec⟩ |
        ⟨s2, bP, be, hscan, hcont⟩
      · subst hout
        exact ⟨fun k u hk => hk, hcons⟩
      · exact ih _ _ _ _ hrec hnd hcons
      · obtain ⟨hpres, hcons'⟩ :=
          solve_write_preserves hup hinj hterm hnd hcons hidx hget hscan
        rcases hcont with ⟨hvis, hout⟩ | ⟨v, visT, hvis, hrec⟩
        · subst hout
          exact ⟨hpres, hcons'⟩
        · obtain ⟨hp2, hc2⟩ := ih _ _ _ _ hrec hnd hcons'
          exact ⟨fun k u hk => hp2 k u (hpres k u hk), hc2⟩

/-- C4: once a node's utility is `Exact`, no `step` changes it.  Under the
game contract (`undo` reverses `play`, injective position keys, `Exact` game
utilities only at terminal positions) and the exact-consistency invariant —
which holds for every tree the algorithm builds and which `step` preserves,
as the conclusion shows — backpropagation leaves `Exact` nodes untouched and
the selection-phase solving write recomputes exactly the value an `Exact`
node already stores. -/
theorem step_exact_monotone [DecidableEq κ] [DecidableEq π] [LinearOrder P]
    (g : Game σ α π κ) (pot : Nat → Nat → Int → P) (pick : Nat → Nat)
    (fuelSel fuelSim : Nat) (t : MonteCarloTree κ π) (s : σ)
    (r : MonteCarloTree κ π × σ)
    (hup : UndoPlay g) (hinj : Function.Injective g.hash)
    (hterm : ∀ (s' : σ) e, g.utility s' = .Exact e → g.actions s' = [])
    (hwf : TreeWf t) (hnd : (t.nodes.map Prod.snd).Nodup)
    (hcons : Consistent g t)
    (hstep : step g pot pick fuelSel fuelSim t s = some r) :
    (∀ k u, utilAt t k = some (.Exact u) → utilAt r.1 k = some (.Exact u)) ∧
    Consistent g r.1 ∧ TreeWf r.1 ∧ (r.1.nodes.map Prod.snd).Nodup := by
  rw [step] at hstep
  rcases hsel : selLoop g pot fuelSel t s [] with _ | out
  · rw [hsel] at hstep; simp at hstep
  · simp only [hsel] at hstep
    obtain ⟨hfn, hfs, hfl, hfv, hfp⟩ := selLoop_frame fuelSel t s [] _ hsel
    obtain ⟨hpres1, hcons1⟩ := selLoop_consistent hup hinj hterm fuelSel t s [] _ hsel hnd hcons
    rcases out with ⟨t1, s1⟩ | ⟨t1, sE, vis⟩
    · simp only [Option.some.injEq] at hstep
      rw [← hstep]
      simp only [SelOut.tree] at hpres1 hcons1 hfn hfl
      refine ⟨hpres1, hcons1, ?_, ?_⟩
      · intro p hp
        rw [hfl]
        exact hwf p (hfn ▸ hp)
      · rw [hfn]
        exact hnd
    · simp only [SelOut.tree] at hpres1 hcons1 hfn hfl
      have hwf1 : TreeWf t1 := by
        intro p hp
        rw [hfl]
        exact hwf p (hfn ▸ hp)
      have hnd1 : (t1.nodes.map Prod.snd).Nodup := by rw [hfn]; exact hnd
      have hkey := selLoop_expand_key fuelSel t s [] t1 sE vis hsel
      have hfwf : ∀ (store2 : List (MonteCarloNode π)) (u0 : Utility π),
          store2.length = (t1.insertNew (g.hash sE) ⟨u0, 1⟩).store.length →
          TreeWf (⟨(t1.insertNew (g.hash sE) ⟨u0, 1⟩).nodes, store2,
            (t1.insertNew (g.hash sE) ⟨u0, 1⟩).simulationsPerNode⟩ : MonteCarloTree κ π) := by
        intro store2 u0 hlen p hp
        show p.2 < store2.length
        rw [hlen]
        show p.2 < (t1.store ++ [(⟨u0, 1⟩ : MonteCarloNode π)]).length
        rw [List.length_append]
        rcases mem_bindKey hp with hm | he
        · exact lt_of_lt_of_le (hwf1 p hm) (by simp)
        · rw [he]
          simp
      have hfnd : ∀ (u0 : Utility π),
          (((t1.insertNew (g.hash sE) ⟨u0, 1⟩).nodes).map Prod.snd).Nodup :=
        fun u0 => bindKey_snd_nodup hnd1 (fun p hp => Nat.ne_of_lt (hwf1 p hp))
      rcases hu : g.utility sE with eu | v | _
      · simp only [hu] at hstep
        rcases hbp : backpropGo g (.Exact eu) vis sE
            (t1.insertNew (g.hash sE) ⟨.Exact eu, 1⟩).store with _ | ⟨sF, store2⟩
        · rw [hbp] at hstep; simp at hstep
        · simp only [hbp, Option.some.injEq] at hstep
          obtain ⟨hpres2, hcons2⟩ := insert_consistent hinj hwf1 hcons1 hkey
            (fun e (he : (Utility.Exact eu : Utility π) = .Exact e) => by
              injection he with he'; rw [← he']; exact hu)
          have hiff := utilAt_store_exact_iff
            (u := t1.insertNew (g.hash sE) ⟨.Exact eu, 1⟩) (w := store2)
            (p := (t1.insertNew (g.hash sE) ⟨.Exact eu, 1⟩).simulationsPerNode)
            (backpropGo_exact_iff _ _ _ _ _ hbp)
          rw [← hstep]
          refine ⟨?_, consistent_transport hiff hcons2, ?_, ?_⟩
          · intro k u hk
            exact (hiff k u).mp (hpres2 k u (hpres1 k u hk))
          · exact hfwf store2 (.Exact eu) (backpropGo_length _ _ _ _ _ hbp)
          · exact hfnd (.Exact eu)
      · simp only [hu] at hstep
        rcases hbp : backpropGo g (.Approximate v) vis sE
            (t1.insertNew (g.hash sE) ⟨.Approximate v, 1⟩).store with _ | ⟨sF, store2⟩
        · rw [hbp] at hstep; simp at hstep
        · simp only [hbp, Option.some.injEq] at hstep
          obtain ⟨hpres2, hcons2⟩ := insert_consistent hinj hwf1 hcons1 hkey
            (fun e (he : (Utility.Approximate v : Utility π) = .Exact e) => by cases he)
          have hiff := utilAt_store_exact_iff
            (u := t1.insertNew (g.hash sE) ⟨.Approximate v, 1⟩) (w := store2)
            (p := (t1.insertNew (g.hash sE) ⟨.Approximate v, 1⟩).simulationsPerNode)
            (backpropGo_exact_iff _ _ _ _ _ hbp)
          rw [← hstep]
          refine ⟨?_, consistent_transport hiff hcons2, ?_, ?_⟩
          · intro k u hk
            exact (hiff k u).mp (hpres2 k u (hpres1 k u hk))
          · exact hfwf store2 (.Approximate v) (backpropGo_length _ _ _ _ _ hbp)
          · exact hfnd (.Approximate v)
      · simp only [hu] at hstep
        rcases hsim : simulate g pick fuelSim t1.simulationsPerNode sE
            t1.simulationsPerNode with _ | ⟨usim, sE1, c⟩
        · rw [hsim] at hstep; simp at hstep
        · simp only [hsim, Option.map_some'] at hstep
          have hsE1 : sE1 = sE := simulate_state hup hsim
          subst hsE1
          obtain ⟨v, hv⟩ := simulate_approx hsim
          rcases hbp : backpropGo g usim vis sE1
              (t1.insertNew (g.hash sE1) ⟨usim, 1⟩).store with _ | ⟨sF, store2⟩
          · rw [hbp] at hstep; simp at hstep
          · simp only [hbp, Option.some.injEq] at hstep
            obtain ⟨hpres2, hcons2⟩ := insert_consistent hinj hwf1 hcons1 hkey
              (fun e (he : usim = .Exact e) => by rw [hv] at he; cases he)
            have hiff := utilAt_store_exact_iff
              (u := t1.insertNew (g.hash sE1) ⟨usim, 1⟩) (w := store2)
              (p := (t1.insertNew (g.hash sE1) ⟨usim, 1⟩).simulationsPerNode)
              (backpropGo_exact_iff _ _ _ _ _ hbp)
            rw [← hstep]
            refine ⟨?_, consistent_transport hiff hcons2, ?_, ?_⟩
            · intro k u hk
              exact (hiff k u).mp (hpres2 k u (hpres1 k u hk))
            · exact hfwf store2 usim (backpropGo_length _ _ _ _ _ hbp)
            · exact hfnd usim



theorem step_exact_monotone_witness :
    (∀ k u, utilAt tC4 k = some (.Exact u) → utilAt stepResC4.1 k = some (.Exact u)) ∧
    Consistent gC4 stepResC4.1 ∧ TreeWf stepResC4.1 ∧
    ((stepResC4.1.nodes.map Prod.snd)).Nodup :=
  step_exact_monotone gC4 potZ pickZ 1 1 tC4 [] stepResC4
    (fun s a => rfl)
    (fun a b h => h)
    (fun s' e h => by
      by_cases h1 : s' = []
      · subst h1
        rw [show gC4.utility [] = .Approximate 3 from rfl] at h
        cases h
      · by_cases h2 : s' = [5]
        · subst h2; rfl
        · exfalso
          have hh : gC4.utility s' = .Unknown := by
            show utilC4 s' = .Unknown
            simp only [utilC4, if_neg h1, if_neg h2]
          rw [hh] at h
          cases h)
    (by intro p hp; fin_cases hp; decide)
    (by decide)
    (fun s u h => by
      by_cases hs : s = [5]
      · subst hs
        rw [show utilAt tC4 (gC4.hash [5]) = some (.Exact .Draw) from rfl] at h
        injection h with h1
        injection h1 with h2
        exact Or.inl (by rw [← h2]; rfl)
      · have hlk : lookupKey (gC4.hash s) tC4.nodes = none := by
          show (if [5] = s then some 0 else (none : Option Nat)) = none
          exact if_neg fun h' => hs h'.symm
        rw [utilAt_of_no_idx hlk] at h
        cases h)
    rfl

end Chameleon
